import Mathlib

/-!
Verification of the `anewworld` multiplayer world-state server.

This file gives a shallow embedding, in Lean 4, of the data model and the
operations of the repository `anewworld` (a Python program), and proves the
spec's testable properties against it.

Python dictionaries are modelled as association lists with insertion-order
semantics (`mlookup`, `minsert`, `mpop`, `mupdate`), Python sets as lists
with membership-guarded insertion (`insertS`) and filtering removal
(`eraseS`).  Machine side effects (`time.time()`, random id generation,
network sends) are passed in as explicit arguments; calls into the
persistent store are returned as an explicit trace.
-/

namespace ANW

/-! ## Definitions

### Association-list model of Python `dict`

A Python `dict` keeps insertion order; assignment to an existing key updates
the value in place, assignment to a fresh key appends at the end, and `pop`
removes the entry. -/

section MapModel

variable {κ : Type} {ν : Type} [DecidableEq κ]

/-- Lookup of a key in an association list, i.e. `d.get(k)` / `d[k]`. -/
def mlookup (k : κ) : List (κ × ν) → Option ν
  | [] => none
  | (k', v) :: t => if k' = k then some v else mlookup k t

/-- Assignment `d[k] = v`: replace in place if the key is present, append
otherwise. -/
def minsert (k : κ) (v : ν) : List (κ × ν) → List (κ × ν)
  | [] => [(k, v)]
  | (k', v') :: t => if k' = k then (k, v) :: t else (k', v') :: minsert k v t

/-- Removal `d.pop(k, None)`: drop the entry for `k` if present. -/
def mpop (k : κ) : List (κ × ν) → List (κ × ν)
  | [] => []
  | (k', v') :: t => if k' = k then t else (k', v') :: mpop k t

/-- Update of an existing entry only (models mutating a value object that is
aliased into the dict: if the entry was evicted, nothing changes). -/
def mupdate (k : κ) (v : ν) : List (κ × ν) → List (κ × ν)
  | [] => []
  | (k', v') :: t => if k' = k then (k, v) :: t else (k', v') :: mupdate k v t

/-- Keys of an association list. -/
def mkeys (m : List (κ × ν)) : List κ := m.map Prod.fst

end MapModel

/-! ### List model of Python `set` -/

section SetModel

variable {α : Type} [DecidableEq α]

/-- Set insertion `s.add(a)`: no duplicates. -/
def insertS (a : α) (s : List α) : List α := if a ∈ s then s else s ++ [a]

/-- Set removal `s.discard(a)`. -/
def eraseS (a : α) (s : List α) : List α := s.filter (fun b => b ≠ a)

end SetModel

/-! ### Data model: resources, placements, the persistent store

These mirror `anewworld/shared/resource/__init__.py`,
`anewworld/server/world_edits_registry.py` and
`anewworld/server/world_edits_store.py`.  Timestamps (`time.time()`) are
abstracted to `Nat` values handed in by the caller; the store's SQLite
table keyed by `(cx, cy, lx, ly)` is an association list whose keys are
unique (the primary key). -/

/-- Resource enumeration (`ResourceType` in `shared/resource`). -/
inductive Resource where
  | house
deriving DecidableEq, Repr

/-- Terrain enumeration (`TileType` in `shared/tile_type.py`). -/
inductive TileType where
  | default_grass
  | default_water
  | dark_grass
  | deep_water
deriving DecidableEq, Repr

/-- Placed object overlay record (`PlacedObject`). -/
structure PlacedObject where
  obj : Resource
  rot : Int
  owner_id : Option Int
  updated_at_s : Nat
deriving DecidableEq, Repr

/-- Wire form of one placement (`PlacedObject.to_wire`). -/
structure WireEdit where
  lx : Int
  ly : Int
  obj : Resource
  rot : Int
  owner_id : Option Int
  updated_at_s : Nat
deriving DecidableEq, Repr

/-- Conversion of a placement to its wire record. -/
def PlacedObject.toWire (p : PlacedObject) (lx ly : Int) : WireEdit :=
  ⟨lx, ly, p.obj, p.rot, p.owner_id, p.updated_at_s⟩

/-- In-memory edit overlay for one chunk (`ChunkEdits`). -/
structure ChunkEdits where
  tiles : List ((Int × Int) × PlacedObject)
  last_access_s : Nat
deriving DecidableEq, Repr

/-- Persistent store contents: rows of the `placements` table, keyed by
`((cx, cy), (lx, ly))`. -/
abbrev Store : Type := List (((Int × Int) × (Int × Int)) × PlacedObject)

/-- All rows of one chunk as `((lx, ly), placement)` pairs
(`WorldEditsStore.load_chunk`). -/
def Store.loadChunk (s : Store) (cx cy : Int) : List ((Int × Int) × PlacedObject) :=
  s.filterMap fun e => if e.1.1 = (cx, cy) then some (e.1.2, e.2) else none

/-- Insert-or-replace of one row (`WorldEditsStore.upsert`). -/
def Store.upsert (s : Store) (cx cy lx ly : Int) (p : PlacedObject) : Store :=
  minsert ((cx, cy), (lx, ly)) p s

/-- Deletion of one row (`WorldEditsStore.delete`). -/
def Store.del (s : Store) (cx cy lx ly : Int) : Store :=
  mpop ((cx, cy), (lx, ly)) s

/-- Calls issued to the persistent store, in order. -/
inductive StoreCall where
  | load (cx cy : Int)
  | upsert (cx cy lx ly : Int) (p : PlacedObject)
  | del (cx cy lx ly : Int)
deriving DecidableEq, Repr

/-! ### WorldEditsRegistry -/

/-- Registry state (`WorldEditsRegistry`): persistent store, configuration,
and the LRU cache (least recently used first, most recently used last, as
in the Python `OrderedDict`). -/
structure RegState where
  store : Store
  chunk_size : Int
  max_cached_chunks : Nat
  cache : List ((Int × Int) × ChunkEdits)
deriving DecidableEq, Repr

/-- Conversion of world tile coordinates to `(cx, cy, lx, ly)` by Python
floor division (`_world_to_chunk`). -/
def worldToChunk (wx wy chunkSize : Int) : Int × Int × Int × Int :=
  let cx := Int.fdiv wx chunkSize
  let cy := Int.fdiv wy chunkSize
  (cx, cy, wx - cx * chunkSize, wy - cy * chunkSize)

/-- LRU eviction until within the cache limit (`_evict_if_needed`): pop
from the least-recently-used front while over capacity. -/
def evictIfNeeded (maxn : Nat) (cache : List ((Int × Int) × ChunkEdits)) :
    List ((Int × Int) × ChunkEdits) :=
  if cache.length ≤ maxn then cache else cache.drop (cache.length - maxn)

/-- Rebuild of a chunk overlay dict from loaded store rows, later rows
overriding earlier ones (the load loop in `_get_or_load_chunk`). -/
def buildTiles (rows : List ((Int × Int) × PlacedObject)) :
    List ((Int × Int) × PlacedObject) :=
  rows.foldl (fun d e => minsert e.1 e.2 d) []

/-- Fetch of a chunk overlay from cache, or load from the store on a miss
(`_get_or_load_chunk` together with `_touch`).  Returns the chunk, the new
registry state and the store calls issued. -/
def getOrLoad (cx cy : Int) (now : Nat) (s : RegState) :
    ChunkEdits × RegState × List StoreCall :=
  match mlookup (cx, cy) s.cache with
  | some ch =>
    let ch2 : ChunkEdits := { ch with last_access_s := now }
    let cache2 := evictIfNeeded s.max_cached_chunks
      (mpop (cx, cy) s.cache ++ [((cx, cy), ch2)])
    (ch2, { s with cache := cache2 }, [])
  | none =>
    let ch : ChunkEdits :=
      { tiles := buildTiles (s.store.loadChunk cx cy), last_access_s := now }
    let cache2 := evictIfNeeded s.max_cached_chunks (s.cache ++ [((cx, cy), ch)])
    (ch, { s with cache := cache2 }, [.load cx cy])

/-- Record returned by `apply_place` (`op` is always `"place"`). -/
structure PlaceRecord where
  cx : Int
  cy : Int
  lx : Int
  ly : Int
  obj : Resource
  rot : Int
  owner_id : Int
  updated_at_s : Nat
deriving DecidableEq, Repr

/-- Application of a placement (`WorldEditsRegistry.apply_place`):
write-through to cache and store, unconditionally overwriting. -/
def applyPlace (pid wx wy : Int) (obj : Resource) (rot : Int) (now : Nat)
    (s : RegState) : PlaceRecord × RegState × List StoreCall :=
  let q := worldToChunk wx wy s.chunk_size
  let cx := q.1
  let cy := q.2.1
  let lx := q.2.2.1
  let ly := q.2.2.2
  let r := getOrLoad cx cy now s
  let ch := r.1
  let s1 := r.2.1
  let placement : PlacedObject := ⟨obj, rot, some pid, now⟩
  let ch2 : ChunkEdits := { ch with tiles := minsert (lx, ly) placement ch.tiles }
  let s2 : RegState := { s1 with
    cache := mupdate (cx, cy) ch2 s1.cache,
    store := s1.store.upsert cx cy lx ly placement }
  (⟨cx, cy, lx, ly, obj, rot, pid, now⟩, s2, r.2.2 ++ [.upsert cx cy lx ly placement])

/-- Record returned by `apply_remove` (`op` is always `"remove"`). -/
structure RemoveRecord where
  cx : Int
  cy : Int
  lx : Int
  ly : Int
  owner_id : Int
  had_object : Bool
  updated_at_s : Nat
deriving DecidableEq, Repr

/-- Removal of a placement if present (`WorldEditsRegistry.apply_remove`);
the store deletion is issued only when an object existed. -/
def applyRemove (pid wx wy : Int) (now : Nat) (s : RegState) :
    RemoveRecord × RegState × List StoreCall :=
  let q := worldToChunk wx wy s.chunk_size
  let cx := q.1
  let cy := q.2.1
  let lx := q.2.2.1
  let ly := q.2.2.2
  let r := getOrLoad cx cy now s
  let ch := r.1
  let s1 := r.2.1
  let existing := mlookup (lx, ly) ch.tiles
  let ch2 : ChunkEdits := { ch with tiles := mpop (lx, ly) ch.tiles }
  let s2 : RegState := { s1 with cache := mupdate (cx, cy) ch2 s1.cache }
  match existing with
  | some _ =>
    (⟨cx, cy, lx, ly, pid, true, now⟩,
     { s2 with store := s2.store.del cx cy lx ly }, r.2.2 ++ [.del cx cy lx ly])
  | none => (⟨cx, cy, lx, ly, pid, false, now⟩, s2, r.2.2)

/-- Full overlay snapshot of one chunk in wire form
(`WorldEditsRegistry.get_chunk_snapshot`). -/
def getChunkSnapshot (cx cy : Int) (now : Nat) (s : RegState) :
    List WireEdit × RegState × List StoreCall :=
  let r := getOrLoad cx cy now s
  (r.1.tiles.map (fun e => e.2.toWire e.1.1 e.1.2), r.2.1, r.2.2)

/-- Eviction of one chunk's cache entry (the explicit eviction step of the
round-trip property: the entry is dropped from the cache, the store keeps
the authoritative data). -/
def evictEntry (key : Int × Int) (s : RegState) : RegState :=
  { s with cache := s.cache.filter (fun e => e.1 ≠ key) }

/-! ### WorldMap (`shared/world_map.py`)

The generated-terrain side: a `WorldMap` owns a chunk size, a generator and
an LRU cache of generated chunks.  The generator is abstracted as a
function from `(cx, cy, chunk_size)` to the flat row-major buffer.

`WorldMap._get_chunk` has a defect: on a cache miss it calls
`generate_chunk(cx = cx, cy = cy, chunk_size = chunk_size)` where the
argument expression `chunk_size` is an unbound name (the attribute is
`self.chunk_size`; no local or module-level `chunk_size` exists), so Python
raises `NameError`.  The embedding models that failure as `none`. -/

/-- Generated chunk (`shared/chunk.py`): flat row-major terrain buffer. -/
structure Chunk where
  size : Int
  terrain : List TileType
deriving DecidableEq, Repr

/-- List indexing with Python semantics: negative indices address from the
end, out-of-range raises (`none`). -/
def pyIndex (l : List TileType) (i : Int) : Option TileType :=
  if 0 ≤ i then l[i.toNat]?
  else if 0 ≤ i + l.length then l[(i + l.length).toNat]? else none

/-- Terrain lookup inside a chunk (`Chunk.terrain_at` via `Chunk._idx`). -/
def Chunk.terrainAt (c : Chunk) (x y : Int) : Option TileType :=
  pyIndex c.terrain (y * c.size + x)

/-- World map state (`WorldMap`); `gen cx cy n` stands for
`generator.generate_chunk(cx=cx, cy=cy, chunk_size=n)`. -/
structure WorldMap where
  chunk_size : Int
  gen : Int → Int → Int → List TileType
  max_cached_chunks : Nat
  chunks : List ((Int × Int) × Chunk)

/-- Coordinate split of `WorldMap._split_coords` (identical floor-division
mapping to `_world_to_chunk`). -/
def WorldMap.splitCoords (w : WorldMap) (x y : Int) : Int × Int × Int × Int :=
  let s := w.chunk_size
  let cx := Int.fdiv x s
  let cy := Int.fdiv y s
  (cx, cy, x - cx * s, y - cy * s)

/-- Chunk fetch (`WorldMap._get_chunk`).  A cache hit returns the cached
chunk (the `LRUCache.get` moves it to most-recently-used).  A cache miss
evaluates the unbound name `chunk_size` and raises `NameError`, modelled
as `none`. -/
def WorldMap.getChunk (w : WorldMap) (cx cy : Int) : Option (Chunk × WorldMap) :=
  match mlookup (cx, cy) w.chunks with
  | some ch =>
    some (ch, { w with chunks := mpop (cx, cy) w.chunks ++ [((cx, cy), ch)] })
  | none => none

/-- Terrain query (`WorldMap.terrain_at`): split coordinates, fetch the
owning chunk, index the local tile.  Inherits the cache-miss failure of
`WorldMap.getChunk`. -/
def WorldMap.terrainAt (w : WorldMap) (x y : Int) : Option (TileType × WorldMap) :=
  let q := w.splitCoords x y
  match w.getChunk q.1 q.2.1 with
  | none => none
  | some (ch, w2) =>
    match ch.terrainAt q.2.2.1 q.2.2.2 with
    | none => none
    | some t => some (t, w2)

/-! ### Terrain generator (`shared/terrain_generator.py`)

The Perlin noise fields are abstracted: `elevQ x y` and `moistQ x y` stand
for the quantized samples `_TerrainParameter.sample_q` of the elevation
and moisture parameters at world coordinates `(x, y)` (the float noise and
the amplitude/bias transform are opaque; the classification from the
quantized integer on is embedded exactly). -/

/-- Elevation classes (`ElevationLevel`). -/
inductive ElevationLevel where
  | high
  | low
deriving DecidableEq, Repr

/-- Moisture classes (`MoistureLevels`). -/
inductive MoistureLevel where
  | dry
  | wet
deriving DecidableEq, Repr

/-- Classification of a quantized sample against ordered cutoffs
(`_TerrainParameter.level_at`): the first cutoff whose threshold is ≥ the
value selects the level; exhaustion raises `ValueError` (`none`). -/
def levelAt {L : Type} (cutoffs : List (Int × L)) (q : Int) : Option L :=
  (cutoffs.find? (fun c => decide (q ≤ c.1))).map (fun c => c.2)

/-- Elevation cutoffs `((-1, LOW), (999999, HIGH))`. -/
def elevationCutoffs : List (Int × ElevationLevel) :=
  [(-1, .low), (999999, .high)]

/-- Moisture cutoffs `((-0.8, DRY), (999999, WET))`; against an integer
sample the float threshold `-0.8` selects exactly the values `≤ -1`. -/
def moistureCutoffs : List (Int × MoistureLevel) :=
  [(-1, .dry), (999999, .wet)]

/-- Terrain generator (`TerrainGenerator`) with abstracted quantized noise
fields and the land-grid lookup table (`LevelGrid.get`, total thanks to
its default value). -/
structure TerrainGen where
  elevQ : Int → Int → Int
  moistQ : Int → Int → Int
  landGrid : ElevationLevel → MoistureLevel → TileType

/-- Tile computation of the generation loop body for one world coordinate:
LOW elevation short-circuits to water without consulting moisture. -/
def tileAt (g : TerrainGen) (x y : Int) : Option TileType :=
  (levelAt elevationCutoffs (g.elevQ x y)).bind fun elev =>
    if elev = ElevationLevel.low then some TileType.default_water
    else (levelAt moistureCutoffs (g.moistQ x y)).map fun moist => g.landGrid elev moist

/-- Sequencing of a list of optional values; a single failure (a raised
`ValueError`) discards the whole buffer. -/
def seqOpt {α : Type} : List (Option α) → Option (List α)
  | [] => some []
  | none :: _ => none
  | some a :: t => (seqOpt t).map (fun l => a :: l)

/-- Chunk generation (`TerrainGenerator.generate_chunk`): flat row-major
buffer over the chunk's world coordinates. -/
def generateChunk (g : TerrainGen) (cx cy : Int) (n : Nat) : Option (List TileType) :=
  seqOpt ((List.range (n * n)).map fun i =>
    tileAt g (cx * (n : Int) + ((i % n : Nat) : Int)) (cy * (n : Int) + ((i / n : Nat) : Int)))

/-! ### Chunk subscriptions (`server/services/world_service.py`) -/

/-- Player identifier (Python int). -/
abbrev PlayerId := Int

/-- Chunk key `(cx, cy)`. -/
abbrev ChunkKey := Int × Int

/-- Subscription indices of `WorldService`: `_chunk_subs` and
`_player_subs`. -/
structure SubState where
  chunk_subs : List (ChunkKey × List PlayerId)
  player_subs : List (PlayerId × List ChunkKey)
deriving DecidableEq, Repr

/-- Empty indices (`WorldService.new`). -/
def emptySubs : SubState := ⟨[], []⟩

/-- Subscriber set of a chunk (absent key reads as the empty set). -/
def chunkSet (s : SubState) (k : ChunkKey) : List PlayerId :=
  (mlookup k s.chunk_subs).getD []

/-- Subscription set of a player (absent key reads as the empty set). -/
def playerSet (s : SubState) (p : PlayerId) : List ChunkKey :=
  (mlookup p s.player_subs).getD []

/-- Index mutation of `handle_sub_chunk` (after the identity and
coordinate checks): `setdefault(key, set()).add(...)` on both indices. -/
def subChunk (p : PlayerId) (k : ChunkKey) (s : SubState) : SubState :=
  { chunk_subs := minsert k (insertS p (chunkSet s k)) s.chunk_subs,
    player_subs := minsert p (insertS k (playerSet s p)) s.player_subs }

/-- Replies sent by the world service handlers. -/
inductive WsReply where
  | unsubOk (cx cy : Int)
  | errNoPlayerId
deriving DecidableEq, Repr

/-- Shared discard-and-prune block of `handle_unsub_chunk` and
`on_disconnect`: `m.get(key).discard(a)`, and the entry is dropped when
its set empties. -/
def removeFromSet {κ α : Type} [DecidableEq κ] [DecidableEq α]
    (key : κ) (a : α) (m : List (κ × List α)) : List (κ × List α) :=
  match mlookup key m with
  | none => m
  | some s0 =>
    let s2 := eraseS a s0
    if s2.isEmpty then mpop key m else minsert key s2 m

/-- Unsubscription handler (`handle_unsub_chunk`): resolve the player,
discard the key from the player's set (dropping the entry when it empties),
discard the player from the chunk's set (likewise), acknowledge. -/
def handleUnsubChunk (pid : Option PlayerId) (cx cy : Int) (s : SubState) :
    WsReply × SubState :=
  match pid with
  | none => (.errNoPlayerId, s)
  | some p =>
    let k : ChunkKey := (cx, cy)
    let s1 : SubState := { s with player_subs := removeFromSet p k s.player_subs }
    let s2 : SubState := { s1 with chunk_subs := removeFromSet k p s1.chunk_subs }
    (.unsubOk cx cy, s2)

/-- Removal of one player from one chunk's subscriber set (loop body of
`on_disconnect`). -/
def removeChunkSub (p : PlayerId) (k : ChunkKey) (st : SubState) : SubState :=
  { st with chunk_subs := removeFromSet k p st.chunk_subs }

/-- Disconnect cleanup (`on_disconnect`): pop the player's subscription
set, then remove the player from each of those chunks' subscriber sets. -/
def onDisconnect (p : PlayerId) (s : SubState) : SubState :=
  match mlookup p s.player_subs with
  | none => s
  | some cs =>
    let s1 : SubState := { s with player_subs := mpop p s.player_subs }
    if cs.isEmpty then s1
    else cs.foldl (fun st k => removeChunkSub p k st) s1

/-- One subscription-index operation by an identified player. -/
inductive SubOp where
  | sub (p : PlayerId) (k : ChunkKey)
  | unsub (p : PlayerId) (k : ChunkKey)
  | disc (p : PlayerId)
deriving DecidableEq, Repr

/-- Application of one operation to the indices. -/
def applySubOp (s : SubState) : SubOp → SubState
  | .sub p k => subChunk p k s
  | .unsub p k => (handleUnsubChunk (some p) k.1 k.2 s).2
  | .disc p => onDisconnect p s

/-- State after a sequence of operations, starting from empty indices. -/
def runSubOps (ops : List SubOp) : SubState := ops.foldl applySubOp emptySubs

/-- Representation and service invariant of the subscription indices: the
maps have unique keys (they model Python dicts), empty sets are never
stored (the handlers prune them), and the two indices are exactly
symmetric. -/
def SubWF (s : SubState) : Prop :=
  (mkeys s.chunk_subs).Nodup ∧ (mkeys s.player_subs).Nodup ∧
  (∀ k, mlookup k s.chunk_subs ≠ some []) ∧
  (∀ p, mlookup p s.player_subs ≠ some []) ∧
  (∀ p k, p ∈ chunkSet s k ↔ k ∈ playerSet s p)

/-! ### Inventory (`shared/inventory.py`, `server/services/inventory_service.py`) -/

/-- Inventory contents: mapping resource → quantity, absent key means
zero. -/
abbrev Inv := List (Resource × Int)

/-- Quantity of a resource (`Inventory.get`). -/
def invGet (inv : Inv) (r : Resource) : Int := (mlookup r inv).getD 0

/-- Additive grant (`Inventory.add`): non-positive quantities are a
no-op. -/
def invAdd (inv : Inv) (r : Resource) (q : Int) : Inv :=
  if q ≤ 0 then inv else minsert r (invGet inv r + q) inv

/-- Check-then-decrement (`Inventory.try_remove`): non-positive quantities
always succeed; an insufficient balance fails without mutation; a balance
hitting zero drops the key. -/
def invTryRemove (inv : Inv) (r : Resource) (q : Int) : Bool × Inv :=
  if q ≤ 0 then (true, inv)
  else
    let cur := invGet inv r
    if cur < q then (false, inv)
    else if cur - q = 0 then (true, mpop r inv)
    else (true, minsert r (cur - q) inv)

/-- Starter inventory (`Inventory.starter`): one `HOUSE`. -/
def starterInv : Inv := [(Resource.house, 1)]

/-- Service-level consume (`InventoryService.try_consume`): quantity ≤ 0
returns `True` before touching the registry. -/
def svcTryConsume (inv : Inv) (r : Resource) (q : Int) : Bool × Inv :=
  if q ≤ 0 then (true, inv) else invTryRemove inv r q

/-- Service-level grant (`InventoryService.grant`): quantity ≤ 0 returns
before touching the registry. -/
def svcGrant (inv : Inv) (r : Resource) (q : Int) : Inv :=
  if q ≤ 0 then inv else invAdd inv r q

/-- One inventory operation on a player's inventory. -/
inductive InvOp where
  | grant (r : Resource) (q : Int)
  | consume (r : Resource) (q : Int)
deriving DecidableEq, Repr

/-- Application of one inventory operation. -/
def applyInvOp (inv : Inv) : InvOp → Inv
  | .grant r q => svcGrant inv r q
  | .consume r q => (svcTryConsume inv r q).2

/-- Inventory after a sequence of operations starting from the starter
inventory. -/
def runInvOps (ops : List InvOp) : Inv := ops.foldl applyInvOp starterInv

/-! ### Sessions and handshake (`server/sessions.py`,
`server/services/player_service.py`)

Connections (`asyncio.StreamWriter`) are opaque handles, modelled as
integers; `secrets.randbits(64)` is passed in as the `fresh` argument. -/

/-- Connected client session (`Session`). -/
structure Session where
  player_id : Int
  writer : Int
  connected_at_s : Nat
  last_seen_s : Nat
deriving DecidableEq, Repr

/-- Session registry (`SessionRegistry`): two indices, by player id and by
connection. -/
structure SessionRegistry where
  by_player : List (Int × Session)
  by_writer : List (Int × Int)
deriving DecidableEq, Repr

/-- Registration of a session into both indices (`SessionRegistry.add`). -/
def SessionRegistry.add (reg : SessionRegistry) (sess : Session) : SessionRegistry :=
  ⟨minsert sess.player_id sess reg.by_player,
   minsert sess.writer sess.player_id reg.by_writer⟩

/-- Messages sent during the handshake. -/
inductive HandshakeMsg where
  | assignId (player_id : Int)
deriving DecidableEq, Repr

/-- Handshake handler (`PlayerService.handle_request_id`): an existing
session's id is re-sent without touching the registry; otherwise a fresh
id and session are registered and sent. -/
def handleRequestId (w : Int) (now fresh : Nat) (reg : SessionRegistry) :
    Int × SessionRegistry × List HandshakeMsg :=
  match mlookup w reg.by_writer with
  | some pid => (pid, reg, [.assignId pid])
  | none =>
    let sess : Session := ⟨(fresh : Int), w, now, now⟩
    ((fresh : Int), reg.add sess, [.assignId (fresh : Int)])

/-! ### Broadcast (`WorldService.broadcast_chunk`)

The network send is abstracted as a function from the writer to an
outcome: success, a `ConnectionResetError` (the only exception type the
code catches), or any other exception. -/

/-- Outcome of one `await send(writer, payload)`. -/
inductive SendOutcome where
  | ok
  | connReset
  | failOther
deriving DecidableEq, Repr

/-- Result of a broadcast: the writers to which a send was attempted, in
order, and whether an exception escaped the handler. -/
structure BroadcastResult where
  attempted : List Int
  raised : Bool
deriving DecidableEq, Repr

/-- Delivery loop of `broadcast_chunk` over the subscriber snapshot:
missing sessions are skipped, `ConnectionResetError` is caught and the
loop continues, any other exception propagates immediately. -/
def broadcastRun (send : Int → SendOutcome) (byPlayer : List (Int × Int)) :
    List PlayerId → BroadcastResult
  | [] => ⟨[], false⟩
  | p :: rest =>
    match mlookup p byPlayer with
    | none => broadcastRun send byPlayer rest
    | some w =>
      match send w with
      | .failOther => ⟨[w], true⟩
      | _ =>
        let r := broadcastRun send byPlayer rest
        ⟨w :: r.attempted, r.raised⟩

/-- Broadcast to all subscribers of a chunk (`broadcast_chunk`): an absent
or empty subscriber set returns immediately. -/
def broadcastChunk (send : Int → SendOutcome) (byPlayer : List (Int × Int))
    (subs : SubState) (cx cy : Int) : BroadcastResult :=
  match mlookup (cx, cy) subs.chunk_subs with
  | none => ⟨[], false⟩
  | some l => if l.isEmpty then ⟨[], false⟩ else broadcastRun send byPlayer l

/-! ## Theorems

### Association-list lemmas -/

section MapLemmas

variable {κ : Type} {ν : Type} [DecidableEq κ]

theorem mlookup_eq_none_of_not_mem_keys {k : κ} {m : List (κ × ν)}
    (h : k ∉ mkeys m) : mlookup k m = none := by
  induction m with
  | nil => rfl
  | cons e t ih =>
    obtain ⟨k', v'⟩ := e
    simp only [mkeys, List.map_cons, List.mem_cons, not_or] at h
    have hne : ¬k' = k := fun hc => h.1 hc.symm
    simp only [mlookup, if_neg hne, mkeys] at *
    exact ih h.2

theorem mlookup_minsert_self (k : κ) (v : ν) (m : List (κ × ν)) :
    mlookup k (minsert k v m) = some v := by
  induction m with
  | nil => simp [minsert, mlookup]
  | cons e t ih =>
    obtain ⟨k', v'⟩ := e
    by_cases h : k' = k
    · simp [minsert, h, mlookup]
    · simpa [minsert, h, mlookup] using ih

theorem mlookup_minsert_ne {k k' : κ} (hne : k ≠ k') (v : ν) (m : List (κ × ν)) :
    mlookup k' (minsert k v m) = mlookup k' m := by
  induction m with
  | nil => simp [minsert, mlookup, hne]
  | cons e t ih =>
    obtain ⟨a, b⟩ := e
    by_cases h : a = k
    · subst h
      simp [minsert, mlookup, hne]
    · simp only [minsert, if_neg h, mlookup]
      split <;> simp_all

theorem mlookup_mpop_self_of_nodup {k : κ} {m : List (κ × ν)}
    (hnd : (mkeys m).Nodup) : mlookup k (mpop k m) = none := by
  induction m with
  | nil => rfl
  | cons e t ih =>
    obtain ⟨k', v'⟩ := e
    simp only [mkeys, List.map_cons, List.nodup_cons] at hnd
    by_cases h : k' = k
    · subst h
      simp only [mpop, if_pos rfl]
      exact mlookup_eq_none_of_not_mem_keys hnd.1
    · simp only [mpop, if_neg h, mlookup, if_neg h]
      exact ih hnd.2

theorem mlookup_mpop_ne {k k' : κ} (hne : k ≠ k') (m : List (κ × ν)) :
    mlookup k' (mpop k m) = mlookup k' m := by
  induction m with
  | nil => rfl
  | cons e t ih =>
    obtain ⟨a, b⟩ := e
    by_cases h : a = k
    · subst h
      simp [mpop, mlookup, hne]
    · simp only [mpop, if_neg h, mlookup]
      split <;> simp_all

theorem minsert_self_of_mlookup {k : κ} {v : ν} {m : List (κ × ν)}
    (h : mlookup k m = some v) : minsert k v m = m := by
  induction m with
  | nil => simp [mlookup] at h
  | cons e t ih =>
    obtain ⟨k', v'⟩ := e
    by_cases he : k' = k
    · subst he
      simp [mlookup] at h
      simp [minsert, h]
    · simp only [mlookup, if_neg he] at h
      simp [minsert, he, ih h]

theorem mupdate_self_of_mlookup {k : κ} {v : ν} {m : List (κ × ν)}
    (h : mlookup k m = some v) : mupdate k v m = m := by
  induction m with
  | nil => rfl
  | cons e t ih =>
    obtain ⟨k', v'⟩ := e
    by_cases he : k' = k
    · subst he
      simp [mlookup] at h
      simp [mupdate, h]
    · simp only [mlookup, if_neg he] at h
      simp [mupdate, he, ih h]

theorem mpop_of_not_mem {k : κ} {m : List (κ × ν)}
    (h : mlookup k m = none) : mpop k m = m := by
  induction m with
  | nil => rfl
  | cons e t ih =>
    obtain ⟨k', v'⟩ := e
    by_cases he : k' = k
    · simp [mlookup, he] at h
    · simp only [mlookup, if_neg he] at h
      simp [mpop, he, ih h]

theorem mem_of_mlookup_eq_some {k : κ} {v : ν} {m : List (κ × ν)}
    (h : mlookup k m = some v) : (k, v) ∈ m := by
  induction m with
  | nil => simp [mlookup] at h
  | cons e t ih =>
    obtain ⟨k', v'⟩ := e
    by_cases he : k' = k
    · subst he
      simp [mlookup] at h
      simp [h]
    · simp only [mlookup, if_neg he] at h
      exact List.mem_cons_of_mem _ (ih h)

theorem mlookup_eq_some_of_mem_of_nodup {k : κ} {v : ν} {m : List (κ × ν)}
    (hnd : (mkeys m).Nodup) (h : (k, v) ∈ m) : mlookup k m = some v := by
  induction m with
  | nil => simp at h
  | cons e t ih =>
    obtain ⟨k', v'⟩ := e
    simp only [mkeys, List.map_cons, List.nodup_cons] at hnd
    rcases List.mem_cons.mp h with h | h
    · cases h
      simp [mlookup]
    · have hne : k' ≠ k := by
        intro hc
        subst hc
        exact hnd.1 (by simpa [mkeys] using ⟨v, h⟩)
      simp only [mlookup, if_neg hne, mkeys] at *
      exact ih hnd.2 h

theorem mkeys_minsert (k : κ) (v : ν) (m : List (κ × ν)) :
    mkeys (minsert k v m) = if k ∈ mkeys m then mkeys m else mkeys m ++ [k] := by
  induction m with
  | nil => simp [minsert, mkeys]
  | cons e t ih =>
    obtain ⟨k', v'⟩ := e
    by_cases h : k' = k
    · simp [minsert, h, mkeys]
    · have hne : ¬k = k' := fun hc => h hc.symm
      simp only [minsert, if_neg h, mkeys, List.map_cons] at *
      rw [ih]
      by_cases hk : k ∈ List.map Prod.fst t <;> simp [hk, hne]

theorem nodup_mkeys_minsert {k : κ} {v : ν} {m : List (κ × ν)}
    (hnd : (mkeys m).Nodup) : (mkeys (minsert k v m)).Nodup := by
  rw [mkeys_minsert]
  by_cases h : k ∈ mkeys m
  · simpa [h] using hnd
  · rw [if_neg h]
    refine List.Nodup.append hnd (List.nodup_singleton k) ?_
    intro a ha hc
    simp only [List.mem_singleton] at hc
    exact h (hc ▸ ha)

theorem mkeys_mupdate (k : κ) (v : ν) (m : List (κ × ν)) :
    mkeys (mupdate k v m) = mkeys m := by
  induction m with
  | nil => rfl
  | cons e t ih =>
    obtain ⟨k', v'⟩ := e
    by_cases h : k' = k
    · simp [mupdate, h, mkeys]
    · simp only [mupdate, if_neg h, mkeys, List.map_cons] at *
      rw [ih]

theorem value_eq_of_mem_of_nodup {k : κ} {v v' : ν} {m : List (κ × ν)}
    (hnd : (mkeys m).Nodup) (h : (k, v) ∈ m) (h' : (k, v') ∈ m) : v = v' := by
  have hv := mlookup_eq_some_of_mem_of_nodup hnd h
  have hv' := mlookup_eq_some_of_mem_of_nodup hnd h'
  exact Option.some_injective ν (hv.symm.trans hv')

theorem not_mem_keys_of_mlookup_none {k : κ} {m : List (κ × ν)}
    (h : mlookup k m = none) : k ∉ mkeys m := by
  induction m with
  | nil => simp [mkeys]
  | cons e t ih =>
    obtain ⟨k', v'⟩ := e
    by_cases he : k' = k
    · simp [mlookup, he] at h
    · simp only [mlookup, if_neg he] at h
      simp only [mkeys, List.map_cons, List.mem_cons, not_or]
      exact ⟨fun hc => he hc.symm, by simpa [mkeys] using ih h⟩

theorem mlookup_append_of_none {k : κ} {l : List (κ × ν)}
    (h : mlookup k l = none) (r : List (κ × ν)) :
    mlookup k (l ++ r) = mlookup k r := by
  induction l with
  | nil => rfl
  | cons e t ih =>
    obtain ⟨k', v'⟩ := e
    by_cases he : k' = k
    · simp [mlookup, he] at h
    · simp only [mlookup, if_neg he] at h
      simp only [List.cons_append, mlookup, if_neg he]
      exact ih h

theorem mlookup_drop_none {k : κ} {l : List (κ × ν)}
    (h : mlookup k l = none) (n : Nat) : mlookup k (l.drop n) = none := by
  apply mlookup_eq_none_of_not_mem_keys
  intro hc
  apply not_mem_keys_of_mlookup_none h
  simp only [mkeys, List.mem_map] at *
  obtain ⟨e, he, hk⟩ := hc
  exact ⟨e, List.drop_subset n l he, hk⟩

theorem mupdate_of_none {k : κ} {v : ν} {m : List (κ × ν)}
    (h : mlookup k m = none) : mupdate k v m = m := by
  induction m with
  | nil => rfl
  | cons e t ih =>
    obtain ⟨k', v'⟩ := e
    by_cases he : k' = k
    · simp [mlookup, he] at h
    · simp only [mlookup, if_neg he] at h
      simp [mupdate, he, ih h]

theorem mlookup_filter_ne_self (k : κ) (m : List (κ × ν)) :
    mlookup k (m.filter fun e => e.1 ≠ k) = none := by
  induction m with
  | nil => rfl
  | cons e t ih =>
    obtain ⟨k', v'⟩ := e
    by_cases h : k' = k
    · simpa [List.filter_cons, h] using ih
    · simpa [List.filter_cons, h, mlookup] using ih

end MapLemmas

/-! ### Set lemmas -/

section SetLemmas

variable {α : Type} [DecidableEq α]

theorem mem_insertS {a b : α} {s : List α} : b ∈ insertS a s ↔ b = a ∨ b ∈ s := by
  by_cases h : a ∈ s
  · simp only [insertS, if_pos h]
    constructor
    · exact Or.inr
    · rintro (rfl | hb)
      exacts [h, hb]
  · simp [insertS, if_neg h, or_comm]

theorem mem_eraseS {a b : α} {s : List α} : b ∈ eraseS a s ↔ b ∈ s ∧ b ≠ a := by
  simp [eraseS]

theorem eraseS_of_not_mem {a : α} {s : List α} (h : a ∉ s) : eraseS a s = s := by
  apply List.filter_eq_self.mpr
  intro b hb
  simp only [ne_eq, decide_eq_true_eq]
  intro hc
  exact h (hc ▸ hb)

theorem eraseS_eraseS (a : α) (s : List α) : eraseS a (eraseS a s) = eraseS a s :=
  eraseS_of_not_mem (by simp [mem_eraseS])

end SetLemmas

/-! ### Store and chunk-overlay lemmas -/

theorem mem_loadChunk {s : Store} {cx cy lx ly : Int} {p : PlacedObject} :
    ((lx, ly), p) ∈ s.loadChunk cx cy ↔ (((cx, cy), (lx, ly)), p) ∈ s := by
  unfold Store.loadChunk
  rw [List.mem_filterMap]
  constructor
  · rintro ⟨e, he, hfe⟩
    by_cases h : e.1.1 = (cx, cy)
    · rw [if_pos h] at hfe
      obtain ⟨⟨a, b⟩, c⟩ := e
      simp only at h
      subst h
      simp only [Option.some.injEq, Prod.mk.injEq] at hfe
      obtain ⟨hl, hp⟩ := hfe
      rw [← hl, ← hp] at *
      simpa using he
    · rw [if_neg h] at hfe
      exact absurd hfe (by simp)
  · intro h
    exact ⟨(((cx, cy), (lx, ly)), p), h, by simp⟩

theorem nodup_keys_loadChunk {s : Store} (hnd : (mkeys s).Nodup) (cx cy : Int) :
    (mkeys (s.loadChunk cx cy)).Nodup := by
  induction s with
  | nil => simp [Store.loadChunk, mkeys]
  | cons e t ih =>
    simp only [mkeys, List.map_cons, List.nodup_cons] at hnd
    by_cases h : e.1.1 = (cx, cy)
    · rw [show Store.loadChunk (e :: t) cx cy
        = (e.1.2, e.2) :: Store.loadChunk t cx cy from by
          simp [Store.loadChunk, List.filterMap_cons, h]]
      simp only [mkeys, List.map_cons, List.nodup_cons]
      refine ⟨?_, ih hnd.2⟩
      intro hc
      simp only [mkeys, List.mem_map] at hc
      obtain ⟨⟨l, p⟩, hmem, hl⟩ := hc
      simp only at hl
      subst hl
      have hmem2 := mem_loadChunk.mp hmem
      apply hnd.1
      have he : e.1 = ((cx, cy), e.1.2) := by
        obtain ⟨⟨a, b⟩, c⟩ := e
        simp only at h
        simp [h]
      rw [he]
      simpa [mkeys] using ⟨p, hmem2⟩
    · rw [show Store.loadChunk (e :: t) cx cy = Store.loadChunk t cx cy from by
        simp [Store.loadChunk, List.filterMap_cons, h]]
      exact ih hnd.2

theorem mlookup_foldl_minsert_of_not_mem {k : Int × Int}
    {rows : List ((Int × Int) × PlacedObject)} (h : k ∉ mkeys rows)
    (d : List ((Int × Int) × PlacedObject)) :
    mlookup k (rows.foldl (fun d e => minsert e.1 e.2 d) d) = mlookup k d := by
  induction rows generalizing d with
  | nil => rfl
  | cons e t ih =>
    simp only [mkeys, List.map_cons, List.mem_cons, not_or] at h
    simp only [List.foldl_cons]
    rw [ih (by simpa [mkeys] using h.2)]
    exact mlookup_minsert_ne (fun hc => h.1 hc.symm) e.2 d

theorem mlookup_buildTiles_of_nodup {rows : List ((Int × Int) × PlacedObject)}
    (hnd : (mkeys rows).Nodup) {k : Int × Int} {v : PlacedObject}
    (hmem : (k, v) ∈ rows) : mlookup k (buildTiles rows) = some v := by
  unfold buildTiles
  suffices h : ∀ d, mlookup k (rows.foldl (fun d e => minsert e.1 e.2 d) d) = some v by
    exact h []
  induction rows with
  | nil => simp at hmem
  | cons e t ih =>
    intro d
    simp only [mkeys, List.map_cons, List.nodup_cons] at hnd
    simp only [List.foldl_cons]
    rcases List.mem_cons.mp hmem with h | h
    · subst h
      rw [mlookup_foldl_minsert_of_not_mem (by simpa [mkeys] using hnd.1) _]
      exact mlookup_minsert_self _ _ _
    · exact ih hnd.2 h _

theorem nodup_keys_foldl_minsert (rows d : List ((Int × Int) × PlacedObject))
    (hd : (mkeys d).Nodup) :
    (mkeys (rows.foldl (fun d e => minsert e.1 e.2 d) d)).Nodup := by
  induction rows generalizing d with
  | nil => exact hd
  | cons e t ih =>
    simp only [List.foldl_cons]
    exact ih _ (nodup_mkeys_minsert hd)

theorem nodup_keys_buildTiles (rows : List ((Int × Int) × PlacedObject)) :
    (mkeys (buildTiles rows)).Nodup :=
  nodup_keys_foldl_minsert rows [] (by simp [mkeys])

theorem getOrLoad_store (cx cy : Int) (now : Nat) (s : RegState) :
    (getOrLoad cx cy now s).2.1.store = s.store := by
  unfold getOrLoad
  cases mlookup (cx, cy) s.cache <;> rfl

theorem getOrLoad_chunk_size (cx cy : Int) (now : Nat) (s : RegState) :
    (getOrLoad cx cy now s).2.1.chunk_size = s.chunk_size := by
  unfold getOrLoad
  cases mlookup (cx, cy) s.cache <;> rfl

theorem getOrLoad_of_cache_miss {cx cy : Int} {now : Nat} {s : RegState}
    (h : mlookup (cx, cy) s.cache = none) :
    (getOrLoad cx cy now s).1 =
      ⟨buildTiles (s.store.loadChunk cx cy), now⟩ := by
  unfold getOrLoad
  rw [h]

theorem mlookup_evict_last {key : Int × Int} {ch : ChunkEdits}
    {l : List ((Int × Int) × ChunkEdits)} (h : mlookup key l = none) (maxn : Nat) :
    mlookup key (evictIfNeeded maxn (l ++ [(key, ch)])) = none ∨
    mlookup key (evictIfNeeded maxn (l ++ [(key, ch)])) = some ch := by
  unfold evictIfNeeded
  split
  · right
    rw [mlookup_append_of_none h]
    simp [mlookup]
  · rw [List.drop_append_eq_append_drop]
    rcases Nat.lt_or_ge ((l ++ [(key, ch)]).length - maxn - l.length) 1 with h1 | h1
    · right
      have h0 : (l ++ [(key, ch)]).length - maxn - l.length = 0 := by omega
      rw [h0]
      rw [mlookup_append_of_none (mlookup_drop_none h _)]
      simp [mlookup]
    · left
      have h0 : ([(key, ch)] : List ((Int × Int) × ChunkEdits)).drop
          ((l ++ [(key, ch)]).length - maxn - l.length) = [] := by
        apply List.drop_eq_nil_of_le
        simpa using h1
      rw [h0, List.append_nil]
      exact mlookup_drop_none h _

theorem getOrLoad_cache_lookup (cx cy : Int) (now : Nat) (s : RegState)
    (hnd : (mkeys s.cache).Nodup) :
    mlookup (cx, cy) (getOrLoad cx cy now s).2.1.cache = none ∨
    mlookup (cx, cy) (getOrLoad cx cy now s).2.1.cache =
      some (getOrLoad cx cy now s).1 := by
  unfold getOrLoad
  cases h : mlookup (cx, cy) s.cache with
  | some ch =>
    dsimp only
    exact mlookup_evict_last (mlookup_mpop_self_of_nodup hnd) _
  | none =>
    dsimp only
    exact mlookup_evict_last h _

theorem getOrLoad_trace (cx cy : Int) (now : Nat) (s : RegState) :
    (getOrLoad cx cy now s).2.2 = [] ∨
    (getOrLoad cx cy now s).2.2 = [.load cx cy] := by
  unfold getOrLoad
  cases mlookup (cx, cy) s.cache <;> simp

/-! ### Claim theorems -/

/-- C5: for every chunk_size `c > 0` and every integer world coordinate
pair `(x, y)` (including negatives), the floor-division split
`_world_to_chunk` yields `(cx, cy, lx, ly)` with `cx*c + lx = x`,
`cy*c + ly = y` and `0 ≤ lx, ly < c`, and `WorldMap._split_coords` is the
identical mapping. -/
theorem coordinate_roundtrip (c x y : Int) (hc : 0 < c) :
    (worldToChunk x y c).1 * c + (worldToChunk x y c).2.2.1 = x ∧
    (worldToChunk x y c).2.1 * c + (worldToChunk x y c).2.2.2 = y ∧
    0 ≤ (worldToChunk x y c).2.2.1 ∧ (worldToChunk x y c).2.2.1 < c ∧
    0 ≤ (worldToChunk x y c).2.2.2 ∧ (worldToChunk x y c).2.2.2 < c ∧
    (∀ w : WorldMap, w.chunk_size = c → w.splitCoords x y = worldToChunk x y c) := by
  have hsplit : ∀ a : Int, a - Int.fdiv a c * c = a % c := by
    intro a
    rw [Int.fdiv_eq_ediv a hc.le, Int.emod_def a c]
    ring
  have hle : ∀ a : Int, Int.fdiv a c * c + (a - Int.fdiv a c * c) = a := by
    intro a
    ring
  refine ⟨hle x, hle y, ?_, ?_, ?_, ?_, ?_⟩
  · rw [show (worldToChunk x y c).2.2.1 = x - Int.fdiv x c * c from rfl, hsplit]
    exact Int.emod_nonneg x hc.ne'
  · rw [show (worldToChunk x y c).2.2.1 = x - Int.fdiv x c * c from rfl, hsplit]
    exact Int.emod_lt_of_pos x hc
  · rw [show (worldToChunk x y c).2.2.2 = y - Int.fdiv y c * c from rfl, hsplit]
    exact Int.emod_nonneg y hc.ne'
  · rw [show (worldToChunk x y c).2.2.2 = y - Int.fdiv y c * c from rfl, hsplit]
    exact Int.emod_lt_of_pos y hc
  · intro w hw
    simp [WorldMap.splitCoords, worldToChunk, hw]

/-- Witness for C5 at `c = 32`, `(x, y) = (-5, 37)`. -/
theorem coordinate_roundtrip_witness :
    (0 : Int) < 32 ∧
    ((worldToChunk (-5) 37 32).1 * 32 + (worldToChunk (-5) 37 32).2.2.1 = -5 ∧
     (worldToChunk (-5) 37 32).2.1 * 32 + (worldToChunk (-5) 37 32).2.2.2 = 37 ∧
     0 ≤ (worldToChunk (-5) 37 32).2.2.1 ∧ (worldToChunk (-5) 37 32).2.2.1 < 32 ∧
     0 ≤ (worldToChunk (-5) 37 32).2.2.2 ∧ (worldToChunk (-5) 37 32).2.2.2 < 32 ∧
     (∀ w : WorldMap, w.chunk_size = 32 →
       w.splitCoords (-5) 37 = worldToChunk (-5) 37 32)) :=
  ⟨by decide, coordinate_roundtrip 32 (-5) 37 (by decide)⟩

/-- C1: edit persistence round-trip.  After `apply_place`, evicting the
owning chunk's cache entry and taking a fresh `get_chunk_snapshot` yields
a wire record identical to the one `apply_place` returned — same `obj`,
`rot`, `owner_id` and `updated_at_s`, at the derived local coordinate
`(lx, ly)` — and that record is the only one of the snapshot at that local
coordinate.  The store's keys are unique (its SQLite primary key) and the
chunk size positive. -/
theorem place_evict_snapshot_roundtrip
    (s : RegState) (hs : (mkeys s.store).Nodup) (hcs : 0 < s.chunk_size)
    (pid wx wy : Int) (obj : Resource) (rot : Int) (now now2 : Nat)
    (r0 : PlaceRecord) (s1 : RegState) (tr : List StoreCall)
    (hplace : applyPlace pid wx wy obj rot now s = (r0, s1, tr)) :
    (⟨r0.lx, r0.ly, r0.obj, r0.rot, some r0.owner_id, r0.updated_at_s⟩ : WireEdit) ∈
      (getChunkSnapshot r0.cx r0.cy now2 (evictEntry (r0.cx, r0.cy) s1)).1 ∧
    ∀ w ∈ (getChunkSnapshot r0.cx r0.cy now2 (evictEntry (r0.cx, r0.cy) s1)).1,
      w.lx = r0.lx → w.ly = r0.ly →
      w = ⟨r0.lx, r0.ly, r0.obj, r0.rot, some r0.owner_id, r0.updated_at_s⟩ := by
  have hr0 : r0 = ⟨(worldToChunk wx wy s.chunk_size).1,
      (worldToChunk wx wy s.chunk_size).2.1,
      (worldToChunk wx wy s.chunk_size).2.2.1,
      (worldToChunk wx wy s.chunk_size).2.2.2, obj, rot, pid, now⟩ := by
    have h1 := congrArg (fun z => z.1) hplace
    simp only [applyPlace] at h1
    exact h1.symm
  have hstore : s1.store =
      minsert (((worldToChunk wx wy s.chunk_size).1,
                (worldToChunk wx wy s.chunk_size).2.1),
               ((worldToChunk wx wy s.chunk_size).2.2.1,
                (worldToChunk wx wy s.chunk_size).2.2.2))
        (⟨obj, rot, some pid, now⟩ : PlacedObject) s.store := by
    have h2 := congrArg (fun z => z.2.1.store) hplace
    simp only [applyPlace, Store.upsert] at h2
    rw [getOrLoad_store] at h2
    exact h2.symm
  subst hr0
  simp only at *
  -- the snapshot is taken on a cache miss, hence rebuilt from the store
  have hmiss : mlookup ((worldToChunk wx wy s.chunk_size).1,
      (worldToChunk wx wy s.chunk_size).2.1)
      (evictEntry ((worldToChunk wx wy s.chunk_size).1,
        (worldToChunk wx wy s.chunk_size).2.1) s1).cache = none :=
    mlookup_filter_ne_self _ _
  have hsnapeq : (getChunkSnapshot (worldToChunk wx wy s.chunk_size).1
      (worldToChunk wx wy s.chunk_size).2.1 now2
      (evictEntry ((worldToChunk wx wy s.chunk_size).1,
        (worldToChunk wx wy s.chunk_size).2.1) s1)).1
      = (buildTiles (Store.loadChunk s1.store (worldToChunk wx wy s.chunk_size).1
          (worldToChunk wx wy s.chunk_size).2.1)).map
          (fun e => e.2.toWire e.1.1 e.1.2) := by
    show ((getOrLoad (worldToChunk wx wy s.chunk_size).1
      (worldToChunk wx wy s.chunk_size).2.1 now2
      (evictEntry ((worldToChunk wx wy s.chunk_size).1,
        (worldToChunk wx wy s.chunk_size).2.1) s1)).1.tiles.map
      (fun e => e.2.toWire e.1.1 e.1.2)) = _
    rw [getOrLoad_of_cache_miss hmiss]
    rfl
  rw [hsnapeq, hstore]
  have hnd2 : (mkeys (minsert (((worldToChunk wx wy s.chunk_size).1,
      (worldToChunk wx wy s.chunk_size).2.1),
      ((worldToChunk wx wy s.chunk_size).2.2.1,
       (worldToChunk wx wy s.chunk_size).2.2.2))
      (⟨obj, rot, some pid, now⟩ : PlacedObject) s.store)).Nodup :=
    nodup_mkeys_minsert hs
  have hrowmem : (((worldToChunk wx wy s.chunk_size).2.2.1,
      (worldToChunk wx wy s.chunk_size).2.2.2),
      (⟨obj, rot, some pid, now⟩ : PlacedObject)) ∈
      Store.loadChunk (minsert (((worldToChunk wx wy s.chunk_size).1,
        (worldToChunk wx wy s.chunk_size).2.1),
        ((worldToChunk wx wy s.chunk_size).2.2.1,
         (worldToChunk wx wy s.chunk_size).2.2.2))
        (⟨obj, rot, some pid, now⟩ : PlacedObject) s.store)
        (worldToChunk wx wy s.chunk_size).1 (worldToChunk wx wy s.chunk_size).2.1 :=
    mem_loadChunk.mpr (mem_of_mlookup_eq_some (mlookup_minsert_self _ _ _))
  have hrownd := nodup_keys_loadChunk hnd2 (worldToChunk wx wy s.chunk_size).1
    (worldToChunk wx wy s.chunk_size).2.1
  have htiles := mlookup_buildTiles_of_nodup hrownd hrowmem
  have htilesmem := mem_of_mlookup_eq_some htiles
  have htilesnd := nodup_keys_buildTiles (Store.loadChunk
    (minsert (((worldToChunk wx wy s.chunk_size).1,
      (worldToChunk wx wy s.chunk_size).2.1),
      ((worldToChunk wx wy s.chunk_size).2.2.1,
       (worldToChunk wx wy s.chunk_size).2.2.2))
      (⟨obj, rot, some pid, now⟩ : PlacedObject) s.store)
    (worldToChunk wx wy s.chunk_size).1 (worldToChunk wx wy s.chunk_size).2.1)
  constructor
  · exact List.mem_map_of_mem (fun e => e.2.toWire e.1.1 e.1.2) htilesmem
  · intro w hw hlx hly
    obtain ⟨⟨⟨a, b⟩, pe⟩, he, hfe⟩ := List.mem_map.mp hw
    simp only [PlacedObject.toWire] at hfe
    subst hfe
    simp only [WireEdit.lx] at hlx
    simp only [WireEdit.ly] at hly
    subst hlx
    subst hly
    have hpe := value_eq_of_mem_of_nodup htilesnd htilesmem he
    rw [← hpe]

/-- Witness for C1: an empty registry with chunk size 16; player 7 places
a house at world tile `(5, 5)` at time 100; the snapshot after eviction is
taken at time 200. -/
theorem place_evict_snapshot_roundtrip_witness :
    (mkeys (RegState.mk [] 16 2048 []).store).Nodup ∧
    (0 : Int) < (RegState.mk [] 16 2048 []).chunk_size ∧
    applyPlace 7 5 5 .house 0 100 (RegState.mk [] 16 2048 []) =
      (⟨0, 0, 5, 5, .house, 0, 7, 100⟩,
       ⟨[(((0, 0), (5, 5)), ⟨.house, 0, some 7, 100⟩)], 16, 2048,
        [((0, 0), ⟨[((5, 5), ⟨.house, 0, some 7, 100⟩)], 100⟩)]⟩,
       [.load 0 0, .upsert 0 0 5 5 ⟨.house, 0, some 7, 100⟩]) ∧
    ((⟨(5 : Int), 5, .house, 0, some 7, 100⟩ : WireEdit) ∈
      (getChunkSnapshot 0 0 200 (evictEntry (0, 0)
        ⟨[(((0, 0), (5, 5)), ⟨.house, 0, some 7, 100⟩)], 16, 2048,
         [((0, 0), ⟨[((5, 5), ⟨.house, 0, some 7, 100⟩)], 100⟩)]⟩)).1 ∧
     ∀ w ∈ (getChunkSnapshot 0 0 200 (evictEntry (0, 0)
        ⟨[(((0, 0), (5, 5)), ⟨.house, 0, some 7, 100⟩)], 16, 2048,
         [((0, 0), ⟨[((5, 5), ⟨.house, 0, some 7, 100⟩)], 100⟩)]⟩)).1,
       w.lx = 5 → w.ly = 5 →
       w = (⟨(5 : Int), 5, .house, 0, some 7, 100⟩ : WireEdit)) := by
  refine ⟨by decide, by decide, by decide, ?_⟩
  exact place_evict_snapshot_roundtrip (RegState.mk [] 16 2048 []) (by decide)
    (by decide) 7 5 5 .house 0 100 200
    ⟨0, 0, 5, 5, .house, 0, 7, 100⟩
    ⟨[(((0, 0), (5, 5)), ⟨.house, 0, some 7, 100⟩)], 16, 2048,
     [((0, 0), ⟨[((5, 5), ⟨.house, 0, some 7, 100⟩)], 100⟩)]⟩
    [.load 0 0, .upsert 0 0 5 5 ⟨.house, 0, some 7, 100⟩]
    (by decide)

/-- C6: idempotent remove.  When the derived local tile holds no placement
(in the chunk overlay as loaded or cached), `apply_remove` succeeds with
`had_object = false`, the persistent store is unchanged, the cache equals
the post-load cache (the chunk's tiles map is untouched), and no store
delete call is issued. -/
theorem remove_empty_tile_noop
    (s : RegState) (pid wx wy : Int) (now : Nat)
    (hnd : (mkeys s.cache).Nodup)
    (hempty : mlookup ((worldToChunk wx wy s.chunk_size).2.2.1,
        (worldToChunk wx wy s.chunk_size).2.2.2)
      (getOrLoad (worldToChunk wx wy s.chunk_size).1
        (worldToChunk wx wy s.chunk_size).2.1 now s).1.tiles = none) :
    (applyRemove pid wx wy now s).1.had_object = false ∧
    (applyRemove pid wx wy now s).2.1.store = s.store ∧
    (applyRemove pid wx wy now s).2.1.cache =
      (getOrLoad (worldToChunk wx wy s.chunk_size).1
        (worldToChunk wx wy s.chunk_size).2.1 now s).2.1.cache ∧
    ∀ a b c d : Int, StoreCall.del a b c d ∉ (applyRemove pid wx wy now s).2.2 := by
  have hch : ({ (getOrLoad (worldToChunk wx wy s.chunk_size).1
      (worldToChunk wx wy s.chunk_size).2.1 now s).1 with
      tiles := mpop ((worldToChunk wx wy s.chunk_size).2.2.1,
        (worldToChunk wx wy s.chunk_size).2.2.2)
        (getOrLoad (worldToChunk wx wy s.chunk_size).1
          (worldToChunk wx wy s.chunk_size).2.1 now s).1.tiles } : ChunkEdits) =
      (getOrLoad (worldToChunk wx wy s.chunk_size).1
        (worldToChunk wx wy s.chunk_size).2.1 now s).1 := by
    rw [mpop_of_not_mem hempty]
  have hrem : applyRemove pid wx wy now s =
      (⟨(worldToChunk wx wy s.chunk_size).1, (worldToChunk wx wy s.chunk_size).2.1,
        (worldToChunk wx wy s.chunk_size).2.2.1, (worldToChunk wx wy s.chunk_size).2.2.2,
        pid, false, now⟩,
       { (getOrLoad (worldToChunk wx wy s.chunk_size).1
           (worldToChunk wx wy s.chunk_size).2.1 now s).2.1 with
         cache := mupdate ((worldToChunk wx wy s.chunk_size).1,
             (worldToChunk wx wy s.chunk_size).2.1)
           (getOrLoad (worldToChunk wx wy s.chunk_size).1
             (worldToChunk wx wy s.chunk_size).2.1 now s).1
           (getOrLoad (worldToChunk wx wy s.chunk_size).1
             (worldToChunk wx wy s.chunk_size).2.1 now s).2.1.cache },
       (getOrLoad (worldToChunk wx wy s.chunk_size).1
         (worldToChunk wx wy s.chunk_size).2.1 now s).2.2) := by
    simp only [applyRemove]
    rw [hempty, hch]
  have hcache : mupdate ((worldToChunk wx wy s.chunk_size).1,
      (worldToChunk wx wy s.chunk_size).2.1)
      (getOrLoad (worldToChunk wx wy s.chunk_size).1
        (worldToChunk wx wy s.chunk_size).2.1 now s).1
      (getOrLoad (worldToChunk wx wy s.chunk_size).1
        (worldToChunk wx wy s.chunk_size).2.1 now s).2.1.cache =
      (getOrLoad (worldToChunk wx wy s.chunk_size).1
        (worldToChunk wx wy s.chunk_size).2.1 now s).2.1.cache := by
    rcases getOrLoad_cache_lookup (worldToChunk wx wy s.chunk_size).1
      (worldToChunk wx wy s.chunk_size).2.1 now s hnd with h | h
    · exact mupdate_of_none h
    · exact mupdate_self_of_mlookup h
  refine ⟨?_, ?_, ?_, ?_⟩
  · rw [hrem]
  · rw [hrem]
    exact getOrLoad_store _ _ _ _
  · rw [hrem]
    exact hcache
  · intro a b c d
    rw [hrem]
    rcases getOrLoad_trace (worldToChunk wx wy s.chunk_size).1
      (worldToChunk wx wy s.chunk_size).2.1 now s with h | h
    · rw [h]
      simp
    · rw [h]
      simp

/-- Witness for C6: an empty registry with chunk size 16; player 9 removes
at the empty world tile `(3, 3)` at time 50. -/
theorem remove_empty_tile_noop_witness :
    (mkeys (RegState.mk [] 16 2048 []).cache).Nodup ∧
    mlookup ((worldToChunk 3 3 (RegState.mk [] 16 2048 []).chunk_size).2.2.1,
        (worldToChunk 3 3 (RegState.mk [] 16 2048 []).chunk_size).2.2.2)
      (getOrLoad (worldToChunk 3 3 (RegState.mk [] 16 2048 []).chunk_size).1
        (worldToChunk 3 3 (RegState.mk [] 16 2048 []).chunk_size).2.1 50
        (RegState.mk [] 16 2048 [])).1.tiles = none ∧
    ((applyRemove 9 3 3 50 (RegState.mk [] 16 2048 [])).1.had_object = false ∧
     (applyRemove 9 3 3 50 (RegState.mk [] 16 2048 [])).2.1.store =
       (RegState.mk [] 16 2048 []).store ∧
     (applyRemove 9 3 3 50 (RegState.mk [] 16 2048 [])).2.1.cache =
       (getOrLoad (worldToChunk 3 3 (RegState.mk [] 16 2048 []).chunk_size).1
         (worldToChunk 3 3 (RegState.mk [] 16 2048 []).chunk_size).2.1 50
         (RegState.mk [] 16 2048 [])).2.1.cache ∧
     ∀ a b c d : Int,
       StoreCall.del a b c d ∉ (applyRemove 9 3 3 50 (RegState.mk [] 16 2048 [])).2.2) := by
  refine ⟨by decide, by decide, ?_⟩
  exact remove_empty_tile_noop (RegState.mk [] 16 2048 []) 9 3 3 50 (by decide) (by decide)

/-! ### Inventory lemmas (for C4) -/

theorem mkeys_mpop_sublist {κ ν : Type} [DecidableEq κ] (k : κ) (m : List (κ × ν)) :
    List.Sublist (mkeys (mpop k m)) (mkeys m) := by
  induction m with
  | nil => simp [mpop, mkeys]
  | cons e t ih =>
    obtain ⟨k', v'⟩ := e
    by_cases h : k' = k
    · simp only [mpop, if_pos h, mkeys, List.map_cons]
      exact List.sublist_cons_of_sublist _ (List.Sublist.refl _)
    · simp only [mpop, if_neg h, mkeys, List.map_cons]
      exact List.Sublist.cons₂ _ ih

theorem nodup_mkeys_mpop {κ ν : Type} [DecidableEq κ] {k : κ} {m : List (κ × ν)}
    (hnd : (mkeys m).Nodup) : (mkeys (mpop k m)).Nodup :=
  hnd.sublist (mkeys_mpop_sublist k m)

theorem invGet_minsert_self (inv : Inv) (r : Resource) (v : Int) :
    invGet (minsert r v inv) r = v := by
  unfold invGet
  rw [mlookup_minsert_self]
  rfl

theorem invGet_minsert_ne {r x : Resource} (h : x ≠ r) (v : Int) (inv : Inv) :
    invGet (minsert r v inv) x = invGet inv x := by
  unfold invGet
  rw [mlookup_minsert_ne (fun hc => h hc.symm)]

theorem invGet_mpop_self {r : Resource} {inv : Inv} (hnd : (mkeys inv).Nodup) :
    invGet (mpop r inv) r = 0 := by
  unfold invGet
  rw [mlookup_mpop_self_of_nodup hnd]
  rfl

theorem invGet_mpop_ne {r x : Resource} (h : x ≠ r) (inv : Inv) :
    invGet (mpop r inv) x = invGet inv x := by
  unfold invGet
  rw [mlookup_mpop_ne (fun hc => h hc.symm)]

theorem inv_step_good (inv : Inv) (hnd : (mkeys inv).Nodup)
    (hpos : ∀ x, 0 ≤ invGet inv x) (op : InvOp) :
    (mkeys (applyInvOp inv op)).Nodup ∧ ∀ x, 0 ≤ invGet (applyInvOp inv op) x := by
  cases op with
  | grant r q =>
    by_cases hq : q ≤ 0
    · simpa [applyInvOp, svcGrant, hq] using ⟨hnd, hpos⟩
    · simp only [applyInvOp, svcGrant, if_neg hq, invAdd]
      refine ⟨nodup_mkeys_minsert hnd, ?_⟩
      intro x
      by_cases hx : x = r
      · subst hx
        rw [invGet_minsert_self]
        have := hpos x
        omega
      · rw [invGet_minsert_ne hx]
        exact hpos x
  | consume r q =>
    by_cases hq : q ≤ 0
    · simpa [applyInvOp, svcTryConsume, hq] using ⟨hnd, hpos⟩
    · simp only [applyInvOp, svcTryConsume, if_neg hq, invTryRemove]
      by_cases hlt : invGet inv r < q
      · simpa [hlt] using ⟨hnd, hpos⟩
      · by_cases hz : invGet inv r - q = 0
        · simp only [if_neg hlt, if_pos hz]
          refine ⟨nodup_mkeys_mpop hnd, ?_⟩
          intro x
          by_cases hx : x = r
          · subst hx
            rw [invGet_mpop_self hnd]
          · rw [invGet_mpop_ne hx]
            exact hpos x
        · simp only [if_neg hlt, if_neg hz]
          refine ⟨nodup_mkeys_minsert hnd, ?_⟩
          intro x
          by_cases hx : x = r
          · subst hx
            rw [invGet_minsert_self]
            omega
          · rw [invGet_minsert_ne hx]
            exact hpos x

theorem foldl_inv_good (ops : List InvOp) (inv : Inv) (hnd : (mkeys inv).Nodup)
    (hpos : ∀ x, 0 ≤ invGet inv x) :
    (mkeys (ops.foldl applyInvOp inv)).Nodup ∧
    ∀ x, 0 ≤ invGet (ops.foldl applyInvOp inv) x := by
  induction ops generalizing inv with
  | nil => exact ⟨hnd, hpos⟩
  | cons op t ih =>
    simp only [List.foldl_cons]
    have h := inv_step_good inv hnd hpos op
    exact ih _ h.1 h.2

theorem runInvOps_good (ops : List InvOp) :
    (mkeys (runInvOps ops)).Nodup ∧ ∀ x, 0 ≤ invGet (runInvOps ops) x := by
  unfold runInvOps
  refine foldl_inv_good ops starterInv (by decide) ?_
  intro x
  cases x
  decide

/-- C4: inventory invariant.  Starting from a starter inventory, after any
sequence of grant / try_consume operations every resource balance is
non-negative; a `try_consume` whose quantity exceeds the current balance
returns `False` and leaves the inventory unchanged; and for quantity ≤ 0,
`try_consume` returns `True` and `grant` returns, both without mutating
the inventory. -/
theorem inventory_invariant (ops : List InvOp) (r : Resource) (q : Int) :
    0 ≤ invGet (runInvOps ops) r ∧
    (invGet (runInvOps ops) r < q →
      svcTryConsume (runInvOps ops) r q = (false, runInvOps ops)) ∧
    (q ≤ 0 → svcTryConsume (runInvOps ops) r q = (true, runInvOps ops) ∧
      svcGrant (runInvOps ops) r q = runInvOps ops) := by
  have hgood := runInvOps_good ops
  refine ⟨hgood.2 r, ?_, ?_⟩
  · intro hlt
    have hq : ¬q ≤ 0 := by
      have := hgood.2 r
      omega
    simp [svcTryConsume, invTryRemove, hq, hlt]
  · intro hq
    exact ⟨by simp [svcTryConsume, hq], by simp [svcGrant, hq]⟩

/-- Witness for C4: after granting two houses and consuming one, the
balance is 2; consuming 5 fails without mutation, and quantity −1 is a
successful no-op for both operations. -/
theorem inventory_invariant_witness :
    0 ≤ invGet (runInvOps [.grant .house 2, .consume .house 1]) .house ∧
    invGet (runInvOps [.grant .house 2, .consume .house 1]) .house < 5 ∧
    svcTryConsume (runInvOps [.grant .house 2, .consume .house 1]) .house 5 =
      (false, runInvOps [.grant .house 2, .consume .house 1]) ∧
    ((-1 : Int) ≤ 0) ∧
    svcTryConsume (runInvOps [.grant .house 2, .consume .house 1]) .house (-1) =
      (true, runInvOps [.grant .house 2, .consume .house 1]) ∧
    svcGrant (runInvOps [.grant .house 2, .consume .house 1]) .house (-1) =
      runInvOps [.grant .house 2, .consume .house 1] :=
  ⟨(inventory_invariant [.grant .house 2, .consume .house 1] .house 5).1,
   by decide,
   (inventory_invariant [.grant .house 2, .consume .house 1] .house 5).2.1 (by decide),
   by decide,
   ((inventory_invariant [.grant .house 2, .consume .house 1] .house (-1)).2.2
     (by decide)).1,
   ((inventory_invariant [.grant .house 2, .consume .house 1] .house (-1)).2.2
     (by decide)).2⟩

/-! ### Subscription-index lemmas (for C3 and C10) -/

section SubLemmas

variable {κ α : Type} [DecidableEq κ] [DecidableEq α]

theorem insertS_ne_nil (a : α) (s : List α) : insertS a s ≠ [] := by
  unfold insertS
  split
  · intro hc
    simp_all
  · simp

theorem getD_removeFromSet {m : List (κ × List α)} (hnd : (mkeys m).Nodup)
    (key : κ) (a : α) (j : κ) :
    (mlookup j (removeFromSet key a m)).getD [] =
      if j = key then eraseS a ((mlookup key m).getD []) else (mlookup j m).getD [] := by
  unfold removeFromSet
  cases h : mlookup key m with
  | none =>
    by_cases hj : j = key
    · subst hj
      rw [h]
      simp [eraseS]
    · simp [hj]
  | some s0 =>
    dsimp only
    by_cases he : (eraseS a s0).isEmpty
    · rw [if_pos he]
      by_cases hj : j = key
      · subst hj
        rw [mlookup_mpop_self_of_nodup hnd, h]
        simp only [List.isEmpty_iff] at he
        simp [he]
      · rw [mlookup_mpop_ne (fun hc => hj hc.symm)]
        simp [hj]
    · rw [if_neg he]
      by_cases hj : j = key
      · subst hj
        rw [mlookup_minsert_self, h]
        simp
      · rw [mlookup_minsert_ne (fun hc => hj hc.symm)]
        simp [hj]

theorem nodup_removeFromSet {m : List (κ × List α)} (hnd : (mkeys m).Nodup)
    (key : κ) (a : α) : (mkeys (removeFromSet key a m)).Nodup := by
  unfold removeFromSet
  cases mlookup key m with
  | none => exact hnd
  | some s0 =>
    dsimp only
    split
    · exact nodup_mkeys_mpop hnd
    · exact nodup_mkeys_minsert hnd

theorem noEmpty_removeFromSet {m : List (κ × List α)} (hnd : (mkeys m).Nodup)
    (hne : ∀ j, mlookup j m ≠ some []) (key : κ) (a : α) :
    ∀ j, mlookup j (removeFromSet key a m) ≠ some [] := by
  intro j
  unfold removeFromSet
  cases h : mlookup key m with
  | none => exact hne j
  | some s0 =>
    dsimp only
    split
    · by_cases hj : j = key
      · subst hj
        rw [mlookup_mpop_self_of_nodup hnd]
        simp
      · rw [mlookup_mpop_ne (fun hc => hj hc.symm)]
        exact hne j
    · by_cases hj : j = key
      · subst hj
        rw [mlookup_minsert_self]
        intro hc
        simp only [Option.some.injEq] at hc
        rename_i hemp
        rw [hc] at hemp
        simp at hemp
      · rw [mlookup_minsert_ne (fun hc => hj hc.symm)]
        exact hne j

end SubLemmas

theorem chunkSet_subChunk (p : PlayerId) (k : ChunkKey) (s : SubState) (j : ChunkKey) :
    chunkSet (subChunk p k s) j =
      if j = k then insertS p (chunkSet s k) else chunkSet s j := by
  unfold chunkSet subChunk
  by_cases hj : j = k
  · subst hj
    rw [mlookup_minsert_self]
    simp [chunkSet]
  · rw [mlookup_minsert_ne (fun hc => hj hc.symm)]
    simp [hj, chunkSet]

theorem playerSet_subChunk (p : PlayerId) (k : ChunkKey) (s : SubState) (x : PlayerId) :
    playerSet (subChunk p k s) x =
      if x = p then insertS k (playerSet s p) else playerSet s x := by
  unfold playerSet subChunk
  by_cases hx : x = p
  · subst hx
    rw [mlookup_minsert_self]
    simp [playerSet]
  · rw [mlookup_minsert_ne (fun hc => hx hc.symm)]
    simp [hx, playerSet]

theorem chunkSet_unsub (p : PlayerId) (cx cy : Int) (s : SubState)
    (hnd : (mkeys s.chunk_subs).Nodup) (j : ChunkKey) :
    chunkSet (handleUnsubChunk (some p) cx cy s).2 j =
      if j = (cx, cy) then eraseS p (chunkSet s (cx, cy)) else chunkSet s j := by
  unfold handleUnsubChunk chunkSet
  dsimp only
  exact getD_removeFromSet hnd (cx, cy) p j

theorem playerSet_unsub (p : PlayerId) (cx cy : Int) (s : SubState)
    (hnd : (mkeys s.player_subs).Nodup) (x : PlayerId) :
    playerSet (handleUnsubChunk (some p) cx cy s).2 x =
      if x = p then eraseS (cx, cy) (playerSet s p) else playerSet s x := by
  unfold handleUnsubChunk playerSet
  dsimp only
  exact getD_removeFromSet hnd p (cx, cy) x

theorem chunkSet_removeChunkSub (p : PlayerId) (k : ChunkKey) (st : SubState)
    (hnd : (mkeys st.chunk_subs).Nodup) (j : ChunkKey) :
    chunkSet (removeChunkSub p k st) j =
      if j = k then eraseS p (chunkSet st k) else chunkSet st j := by
  unfold chunkSet removeChunkSub
  exact getD_removeFromSet hnd k p j

theorem player_subs_fold_remove (cs : List ChunkKey) (p : PlayerId) (st : SubState) :
    (cs.foldl (fun st k => removeChunkSub p k st) st).player_subs = st.player_subs := by
  induction cs generalizing st with
  | nil => rfl
  | cons k0 t ih =>
    simp only [List.foldl_cons]
    rw [ih]
    rfl

theorem nodup_chunk_subs_fold (cs : List ChunkKey) (p : PlayerId) (st : SubState)
    (hnd : (mkeys st.chunk_subs).Nodup) :
    (mkeys (cs.foldl (fun st k => removeChunkSub p k st) st).chunk_subs).Nodup := by
  induction cs generalizing st with
  | nil => exact hnd
  | cons k0 t ih =>
    simp only [List.foldl_cons]
    exact ih _ (nodup_removeFromSet hnd k0 p)

theorem chunkSet_fold_remove (cs : List ChunkKey) (p : PlayerId) (st : SubState)
    (hnd : (mkeys st.chunk_subs).Nodup) (j : ChunkKey) :
    chunkSet (cs.foldl (fun st k => removeChunkSub p k st) st) j =
      if j ∈ cs then eraseS p (chunkSet st j) else chunkSet st j := by
  induction cs generalizing st with
  | nil => simp
  | cons k0 t ih =>
    simp only [List.foldl_cons]
    rw [ih _ (nodup_removeFromSet hnd k0 p)]
    rw [chunkSet_removeChunkSub p k0 st hnd j]
    by_cases hj : j = k0
    · subst hj
      by_cases hjt : j ∈ t
      · simp [hjt, eraseS_eraseS]
      · simp [hjt]
    · by_cases hjt : j ∈ t
      · simp [hjt, hj]
      · simp [hjt, hj]

theorem playerSet_onDisconnect (p : PlayerId) (s : SubState)
    (hndp : (mkeys s.player_subs).Nodup) (x : PlayerId) :
    playerSet (onDisconnect p s) x = if x = p then [] else playerSet s x := by
  unfold onDisconnect
  cases h : mlookup p s.player_subs with
  | none =>
    by_cases hx : x = p
    · subst hx
      unfold playerSet
      rw [h]
      simp
    · simp [hx]
  | some cs =>
    dsimp only
    have hcore : ∀ st : SubState, st.player_subs = mpop p s.player_subs →
        playerSet st x = if x = p then [] else playerSet s x := by
      intro st hst
      unfold playerSet
      rw [hst]
      by_cases hx : x = p
      · subst hx
        rw [mlookup_mpop_self_of_nodup hndp]
        simp
      · rw [mlookup_mpop_ne (fun hc => hx hc.symm)]
        simp [hx, playerSet]
    split
    · exact hcore _ rfl
    · exact hcore _ (player_subs_fold_remove cs p _)

theorem chunkSet_onDisconnect (p : PlayerId) (s : SubState)
    (hndc : (mkeys s.chunk_subs).Nodup) (j : ChunkKey) :
    chunkSet (onDisconnect p s) j =
      if j ∈ playerSet s p then eraseS p (chunkSet s j) else chunkSet s j := by
  unfold onDisconnect
  cases h : mlookup p s.player_subs with
  | none =>
    unfold playerSet
    rw [h]
    simp
  | some cs =>
    dsimp only
    unfold playerSet
    rw [h]
    simp only [Option.getD_some]
    split
    · rename_i hemp
      simp only [List.isEmpty_iff] at hemp
      subst hemp
      simp [chunkSet]
    · exact chunkSet_fold_remove cs p
        { s with player_subs := mpop p s.player_subs } hndc j

theorem removeFromSet_eq_self {κ α : Type} [DecidableEq κ] [DecidableEq α]
    {m : List (κ × List α)} {key : κ} {a : α}
    (hne : mlookup key m ≠ some []) (hnm : a ∉ (mlookup key m).getD []) :
    removeFromSet key a m = m := by
  unfold removeFromSet
  cases h : mlookup key m with
  | none => rfl
  | some s0 =>
    dsimp only
    have hs0 : a ∉ s0 := by
      rw [h] at hnm
      simpa using hnm
    rw [eraseS_of_not_mem hs0]
    have hse : ¬s0.isEmpty = true := by
      intro hc
      rw [List.isEmpty_iff] at hc
      exact hne (hc ▸ h)
    rw [if_neg hse]
    exact minsert_self_of_mlookup h

/-! Preservation of the subscription invariant. -/

theorem subWF_subChunk {s : SubState} (h : SubWF s) (p : PlayerId) (k : ChunkKey) :
    SubWF (subChunk p k s) := by
  obtain ⟨hnc, hnp, hec, hep, hsym⟩ := h
  refine ⟨nodup_mkeys_minsert hnc, nodup_mkeys_minsert hnp, ?_, ?_, ?_⟩
  · intro j
    unfold subChunk
    by_cases hj : j = k
    · subst hj
      rw [mlookup_minsert_self]
      intro hc
      exact insertS_ne_nil p (chunkSet s j) (by simpa using hc)
    · rw [mlookup_minsert_ne (fun hc => hj hc.symm)]
      exact hec j
  · intro x
    unfold subChunk
    by_cases hx : x = p
    · subst hx
      rw [mlookup_minsert_self]
      intro hc
      exact insertS_ne_nil k (playerSet s x) (by simpa using hc)
    · rw [mlookup_minsert_ne (fun hc => hx hc.symm)]
      exact hep x
  · intro x j
    rw [chunkSet_subChunk p k s j, playerSet_subChunk p k s x]
    by_cases hj : j = k <;> by_cases hx : x = p
    · subst hj
      subst hx
      simp [mem_insertS]
    · subst hj
      rw [if_pos rfl, if_neg hx]
      rw [mem_insertS]
      constructor
      · rintro (rfl | hmem)
        · exact absurd rfl hx
        · exact (hsym x j).mp hmem
      · intro hmem
        exact Or.inr ((hsym x j).mpr hmem)
    · subst hx
      rw [if_neg hj, if_pos rfl]
      rw [mem_insertS]
      constructor
      · intro hmem
        exact Or.inr ((hsym x j).mp hmem)
      · rintro (rfl | hmem)
        · exact absurd rfl hj
        · exact (hsym x j).mpr hmem
    · rw [if_neg hj, if_neg hx]
      exact hsym x j

theorem subWF_unsub {s : SubState} (h : SubWF s) (p : PlayerId) (cx cy : Int) :
    SubWF (handleUnsubChunk (some p) cx cy s).2 := by
  obtain ⟨hnc, hnp, hec, hep, hsym⟩ := h
  refine ⟨?_, ?_, ?_, ?_, ?_⟩
  · exact nodup_removeFromSet hnc (cx, cy) p
  · exact nodup_removeFromSet hnp p (cx, cy)
  · exact noEmpty_removeFromSet hnc hec (cx, cy) p
  · exact noEmpty_removeFromSet hnp hep p (cx, cy)
  · intro x j
    rw [chunkSet_unsub p cx cy s hnc j, playerSet_unsub p cx cy s hnp x]
    by_cases hj : j = (cx, cy) <;> by_cases hx : x = p
    · subst hj
      subst hx
      simp [mem_eraseS]
    · subst hj
      rw [if_pos rfl, if_neg hx]
      rw [mem_eraseS]
      constructor
      · rintro ⟨hmem, -⟩
        exact (hsym x _).mp hmem
      · intro hmem
        exact ⟨(hsym x _).mpr hmem, hx⟩
    · subst hx
      rw [if_neg hj, if_pos rfl]
      rw [mem_eraseS]
      constructor
      · intro hmem
        exact ⟨(hsym x j).mp hmem, hj⟩
      · rintro ⟨hmem, -⟩
        exact (hsym x j).mpr hmem
    · rw [if_neg hj, if_neg hx]
      exact hsym x j

theorem noEmpty_chunk_subs_fold (cs : List ChunkKey) (p : PlayerId) (st : SubState)
    (hnd : (mkeys st.chunk_subs).Nodup)
    (hne : ∀ j, mlookup j st.chunk_subs ≠ some []) :
    ∀ j, mlookup j (cs.foldl (fun st k => removeChunkSub p k st) st).chunk_subs ≠
      some [] := by
  induction cs generalizing st with
  | nil => exact hne
  | cons k0 t ih =>
    simp only [List.foldl_cons]
    exact ih _ (nodup_removeFromSet hnd k0 p) (noEmpty_removeFromSet hnd hne k0 p)

theorem subWF_onDisconnect {s : SubState} (h : SubWF s) (p : PlayerId) :
    SubWF (onDisconnect p s) := by
  obtain ⟨hnc, hnp, hec, hep, hsym⟩ := h
  have hps := playerSet_onDisconnect p s hnp
  have hcs := chunkSet_onDisconnect p s hnc
  refine ⟨?_, ?_, ?_, ?_, ?_⟩
  · unfold onDisconnect
    cases hl : mlookup p s.player_subs with
    | none => exact hnc
    | some cs =>
      dsimp only
      split
      · exact hnc
      · exact nodup_chunk_subs_fold cs p _ hnc
  · unfold onDisconnect
    cases hl : mlookup p s.player_subs with
    | none => exact hnp
    | some cs =>
      dsimp only
      split
      · exact nodup_mkeys_mpop hnp
      · rw [show ((cs.foldl (fun st k => removeChunkSub p k st)
          ({ s with player_subs := mpop p s.player_subs } : SubState)).player_subs)
          = mpop p s.player_subs from player_subs_fold_remove cs p _]
        exact nodup_mkeys_mpop hnp
  · unfold onDisconnect
    cases hl : mlookup p s.player_subs with
    | none => exact hec
    | some cs =>
      dsimp only
      split
      · exact hec
      · exact noEmpty_chunk_subs_fold cs p _ hnc hec
  · unfold onDisconnect
    cases hl : mlookup p s.player_subs with
    | none => exact hep
    | some cs =>
      dsimp only
      have hcore : ∀ x, mlookup x (mpop p s.player_subs) ≠ some [] := by
        intro x
        by_cases hx : x = p
        · subst hx
          rw [mlookup_mpop_self_of_nodup hnp]
          simp
        · rw [mlookup_mpop_ne (fun hc => hx hc.symm)]
          exact hep x
      split
      · exact hcore
      · intro x
        rw [show ((cs.foldl (fun st k => removeChunkSub p k st)
          ({ s with player_subs := mpop p s.player_subs } : SubState)).player_subs)
          = mpop p s.player_subs from player_subs_fold_remove cs p _]
        exact hcore x
  · intro x j
    rw [hps x, hcs j]
    by_cases hx : x = p
    · subst hx
      by_cases hj : j ∈ playerSet s x
      · simp [hj, mem_eraseS]
      · rw [if_pos rfl, if_neg hj]
        simp only [List.not_mem_nil, iff_false]
        intro hc
        exact hj ((hsym x j).mp hc)
    · by_cases hj : j ∈ playerSet s p
      · rw [if_pos hj, if_neg hx, mem_eraseS]
        constructor
        · rintro ⟨hmem, -⟩
          exact (hsym x j).mp hmem
        · intro hmem
          exact ⟨(hsym x j).mpr hmem, hx⟩
      · rw [if_neg hj, if_neg hx]
        exact hsym x j

theorem subWF_step {s : SubState} (h : SubWF s) (op : SubOp) :
    SubWF (applySubOp s op) := by
  cases op with
  | sub p k => exact subWF_subChunk h p k
  | unsub p k => exact subWF_unsub h p k.1 k.2
  | disc p => exact subWF_onDisconnect h p

theorem subWF_empty : SubWF emptySubs := by
  refine ⟨by simp [emptySubs, mkeys], by simp [emptySubs, mkeys], ?_, ?_, ?_⟩
  · intro k
    simp [emptySubs, mlookup]
  · intro p
    simp [emptySubs, mlookup]
  · intro p k
    simp [emptySubs, chunkSet, playerSet, mlookup]

theorem runSubOps_wf (ops : List SubOp) : SubWF (runSubOps ops) := by
  unfold runSubOps
  have hgen : ∀ s : SubState, SubWF s → SubWF (ops.foldl applySubOp s) := by
    induction ops with
    | nil => exact fun s h => h
    | cons op t ih =>
      intro s h
      simp only [List.foldl_cons]
      exact ih _ (subWF_step h op)
  exact hgen emptySubs subWF_empty

theorem disconnect_clears {s : SubState} (h : SubWF s) (p : PlayerId) (j : ChunkKey) :
    p ∉ chunkSet (onDisconnect p s) j := by
  rw [chunkSet_onDisconnect p s h.1 j]
  split
  · simp [mem_eraseS]
  · rename_i hj
    intro hc
    exact hj ((h.2.2.2.2 p j).mp hc)

/-- C3: subscription symmetry invariant.  Starting from empty indices,
after any sequence of subscribe / unsubscribe / disconnect operations the
two indices are exactly symmetric — a player is in a chunk's subscriber
set iff the chunk is in the player's subscription set — and a disconnect
removes the player from every chunk's subscriber set. -/
theorem subscription_symmetry (ops : List SubOp) (p : PlayerId) (k : ChunkKey) :
    (p ∈ chunkSet (runSubOps ops) k ↔ k ∈ playerSet (runSubOps ops) p) ∧
    ∀ q : PlayerId, ∀ j : ChunkKey,
      q ∉ chunkSet (onDisconnect q (runSubOps ops)) j := by
  have h := runSubOps_wf ops
  exact ⟨h.2.2.2.2 p k, fun q j => disconnect_clears h q j⟩

/-- C10: unsubscribe is total and idempotent at the interface.  For an
identified player and a chunk it is not subscribed to, `handle_unsub_chunk`
replies `unsub_chunk_ok` and leaves both indices unchanged, and repeating
the unsubscribe gives the same reply and the same final state.  The
hypotheses (unique keys, no stored empty sets, symmetry) hold of every
state the service can reach, by `runSubOps_wf`. -/
theorem unsub_total_idempotent (s : SubState) (p : PlayerId) (cx cy : Int)
    (hwf : SubWF s) (hns : (cx, cy) ∉ playerSet s p) :
    handleUnsubChunk (some p) cx cy s = (.unsubOk cx cy, s) ∧
    handleUnsubChunk (some p) cx cy (handleUnsubChunk (some p) cx cy s).2 =
      (.unsubOk cx cy, s) := by
  obtain ⟨hnc, hnp, hec, hep, hsym⟩ := hwf
  have hnm : p ∉ chunkSet s (cx, cy) := fun hc => hns ((hsym p (cx, cy)).mp hc)
  have hps : removeFromSet p (cx, cy) s.player_subs = s.player_subs :=
    removeFromSet_eq_self (hep p) hns
  have hcs : removeFromSet (cx, cy) p s.chunk_subs = s.chunk_subs :=
    removeFromSet_eq_self (hec (cx, cy)) hnm
  have h1 : handleUnsubChunk (some p) cx cy s = (.unsubOk cx cy, s) := by
    unfold handleUnsubChunk
    dsimp only
    rw [hps, hcs]
  refine ⟨h1, ?_⟩
  rw [h1]
  exact h1

/-- Witness for C10: the state with player 1 subscribed to chunk `(0, 0)`;
player 2 (not subscribed) unsubscribes from `(0, 0)`. -/
theorem unsub_total_idempotent_witness :
    SubWF (runSubOps [.sub 1 (0, 0)]) ∧
    (0, 0) ∉ playerSet (runSubOps [.sub 1 (0, 0)]) 2 ∧
    (handleUnsubChunk (some 2) 0 0 (runSubOps [.sub 1 (0, 0)]) =
      (.unsubOk 0 0, runSubOps [.sub 1 (0, 0)]) ∧
     handleUnsubChunk (some 2) 0 0
        (handleUnsubChunk (some 2) 0 0 (runSubOps [.sub 1 (0, 0)])).2 =
      (.unsubOk 0 0, runSubOps [.sub 1 (0, 0)])) :=
  ⟨runSubOps_wf [.sub 1 (0, 0)], by decide,
   unsub_total_idempotent (runSubOps [.sub 1 (0, 0)]) 2 0 0
     (runSubOps_wf [.sub 1 (0, 0)]) (by decide)⟩

/-- C7: handshake idempotence.  A connection that already has a session
gets the same PlayerId re-sent and the registry is unchanged; a fresh id
and session are registered only for a connection with no existing
session. -/
theorem handshake_idempotent (w : Int) (now fresh : Nat) (reg : SessionRegistry) :
    (∀ pid : Int, mlookup w reg.by_writer = some pid →
      handleRequestId w now fresh reg = (pid, reg, [.assignId pid])) ∧
    (mlookup w reg.by_writer = none →
      handleRequestId w now fresh reg =
        ((fresh : Int), reg.add ⟨(fresh : Int), w, now, now⟩,
         [.assignId (fresh : Int)])) := by
  constructor
  · intro pid h
    unfold handleRequestId
    rw [h]
  · intro h
    unfold handleRequestId
    rw [h]

/-- Witness for C7: connection 10 already holds player 5, so a retried
handshake re-sends 5 and leaves the registry untouched; on an empty
registry the fresh id 99 is registered. -/
theorem handshake_idempotent_witness :
    mlookup 10 (SessionRegistry.mk [(5, ⟨5, 10, 0, 0⟩)] [(10, 5)]).by_writer =
      some 5 ∧
    handleRequestId 10 1 99 (SessionRegistry.mk [(5, ⟨5, 10, 0, 0⟩)] [(10, 5)]) =
      (5, SessionRegistry.mk [(5, ⟨5, 10, 0, 0⟩)] [(10, 5)], [.assignId 5]) ∧
    mlookup 10 (SessionRegistry.mk [] []).by_writer = none ∧
    handleRequestId 10 1 99 (SessionRegistry.mk [] []) =
      (99, (SessionRegistry.mk [] []).add ⟨99, 10, 1, 1⟩, [.assignId 99]) :=
  ⟨by decide,
   (handshake_idempotent 10 1 99 (SessionRegistry.mk [(5, ⟨5, 10, 0, 0⟩)] [(10, 5)])).1
     5 (by decide),
   by decide,
   (handshake_idempotent 10 1 99 (SessionRegistry.mk [] [])).2 (by decide)⟩

/-- C8 as written is false on the code: `broadcast_chunk` catches only
`ConnectionResetError`.  A send failing with any other exception type
aborts the broadcast: with subscribers 1 and 2 (writers 10 and 20) and a
non-reset failure on writer 10, the exception escapes and writer 20 is
never attempted. -/
theorem broadcast_other_failure_aborts :
    (broadcastRun (fun w => if w = 10 then .failOther else .ok)
      [(1, 10), (2, 20)] [1, 2]).raised = true ∧
    (20 : Int) ∉ (broadcastRun (fun w => if w = 10 then .failOther else .ok)
      [(1, 10), (2, 20)] [1, 2]).attempted := by
  decide

/-- C8 amended: a `ConnectionResetError` during delivery to one subscriber
is caught per-recipient and delivery proceeds to every remaining
subscriber; provided no send raises an exception type other than
`ConnectionResetError`, every subscriber with a session is attempted in
order and nothing propagates out of `broadcast_chunk`. -/
theorem broadcast_reset_isolated (send : Int → SendOutcome)
    (byPlayer : List (Int × Int)) (subs : List PlayerId)
    (hok : ∀ w, send w ≠ .failOther) :
    broadcastRun send byPlayer subs =
      ⟨subs.filterMap (fun p => mlookup p byPlayer), false⟩ ∧
    ∀ st : SubState, ∀ cx cy : Int,
      (broadcastChunk send byPlayer st cx cy).raised = false := by
  have hrun : ∀ l : List PlayerId, broadcastRun send byPlayer l =
      ⟨l.filterMap (fun p => mlookup p byPlayer), false⟩ := by
    intro l
    induction l with
    | nil => rfl
    | cons p rest ih =>
      unfold broadcastRun
      cases h : mlookup p byPlayer with
      | none => simp [List.filterMap_cons, h, ih]
      | some w =>
        cases hs : send w with
        | failOther => exact absurd hs (hok w)
        | ok => simp [List.filterMap_cons, h, ih, hs]
        | connReset => simp [List.filterMap_cons, h, ih, hs]
  refine ⟨hrun subs, ?_⟩
  intro st cx cy
  unfold broadcastChunk
  cases mlookup (cx, cy) st.chunk_subs with
  | none => rfl
  | some l =>
    dsimp only
    split
    · rfl
    · rw [hrun l]

/-- Witness for C8's amended claim: subscribers 1 and 2 with sessions on
writers 10 and 20; writer 10 resets, writer 20 still receives. -/
theorem broadcast_reset_isolated_witness :
    (∀ w : Int, (fun w => if w = 10 then SendOutcome.connReset else .ok) w ≠
      .failOther) ∧
    (broadcastRun (fun w => if w = 10 then SendOutcome.connReset else .ok)
        [(1, 10), (2, 20)] [1, 2] =
      ⟨[1, 2].filterMap (fun p => mlookup p [(1, 10), (2, 20)]), false⟩ ∧
     ∀ st : SubState, ∀ cx cy : Int,
       (broadcastChunk (fun w => if w = 10 then SendOutcome.connReset else .ok)
         [(1, 10), (2, 20)] st cx cy).raised = false) :=
  ⟨fun w => by by_cases h : w = 10 <;> simp [h],
   broadcast_reset_isolated (fun w => if w = 10 then SendOutcome.connReset else .ok)
     [(1, 10), (2, 20)] [1, 2]
     (fun w => by by_cases h : w = 10 <;> simp [h])⟩

/-! ### Terrain generation lemmas (for C9) -/

theorem seqOpt_eq_some {α : Type} {l : List (Option α)} {buf : List α} :
    seqOpt l = some buf ↔ l = buf.map some := by
  induction l generalizing buf with
  | nil =>
    cases buf <;> simp [seqOpt]
  | cons o t ih =>
    cases o with
    | none =>
      simp only [seqOpt]
      constructor
      · intro hc
        simp at hc
      · intro hc
        cases buf <;> simp at hc
    | some a =>
      cases buf with
      | nil =>
        simp only [seqOpt, List.map_nil]
        constructor
        · intro hc
          cases hmap : seqOpt t with
          | none =>
            rw [hmap] at hc
            simp at hc
          | some l2 =>
            rw [hmap] at hc
            simp at hc
        · intro hc
          simp at hc
      | cons b bt =>
        simp only [seqOpt, List.map_cons]
        constructor
        · intro hc
          cases hmap : seqOpt t with
          | none =>
            rw [hmap] at hc
            simp at hc
          | some l2 =>
            rw [hmap] at hc
            simp only [Option.map_some', Option.some.injEq, List.cons.injEq] at hc
            obtain ⟨ha, hl⟩ := hc
            subst ha
            subst hl
            simp [ih.mp hmap]
        · intro hc
          simp only [List.cons.injEq, Option.some.injEq] at hc
          obtain ⟨ha, hl⟩ := hc
          subst ha
          rw [ih.mpr hl]
          rfl

/-- C9: water short-circuit.  In every buffer `generate_chunk` returns,
every position whose quantized elevation sample classifies to the LOW
level holds the water tile, whatever the moisture field is (the statement
quantifies over every `moistQ`, so moisture is never consulted for such
tiles). -/
theorem low_elevation_yields_water (g : TerrainGen) (cx cy : Int) (n : Nat)
    (buf : List TileType) (hbuf : generateChunk g cx cy n = some buf)
    (i : Nat) (hi : i < n * n)
    (hlow : levelAt elevationCutoffs
      (g.elevQ (cx * (n : Int) + ((i % n : Nat) : Int))
        (cy * (n : Int) + ((i / n : Nat) : Int))) = some .low) :
    buf[i]? = some TileType.default_water := by
  unfold generateChunk at hbuf
  have hmap := seqOpt_eq_some.mp hbuf
  have hidx := congrArg (fun l => l[i]?) hmap
  simp only [List.getElem?_map] at hidx
  rw [List.getElem?_range hi] at hidx
  have htile : tileAt g (cx * (n : Int) + ((i % n : Nat) : Int))
      (cy * (n : Int) + ((i / n : Nat) : Int)) = some TileType.default_water := by
    unfold tileAt
    rw [hlow]
    rfl
  have hidx2 : some (tileAt g (cx * (n : Int) + ((i % n : Nat) : Int))
      (cy * (n : Int) + ((i / n : Nat) : Int))) = (buf[i]?).map some := hidx
  rw [htile] at hidx2
  cases hb : buf[i]? with
  | none =>
    rw [hb] at hidx2
    simp at hidx2
  | some tile =>
    rw [hb] at hidx2
    simp only [Option.map_some', Option.some.injEq] at hidx2
    rw [← hidx2]

/-- Witness for C9 at a generator whose elevation field is constantly −2
(classified LOW) on a 2×2 chunk: every tile is water. -/
theorem low_elevation_yields_water_witness :
    generateChunk ⟨fun _ _ => -2, fun _ _ => 3, fun _ _ => TileType.default_grass⟩
        0 0 2 =
      some [TileType.default_water, TileType.default_water,
            TileType.default_water, TileType.default_water] ∧
    (0 : Nat) < 2 * 2 ∧
    levelAt elevationCutoffs
      ((⟨fun _ _ => -2, fun _ _ => 3, fun _ _ => TileType.default_grass⟩ :
        TerrainGen).elevQ ((0 : Int) * (2 : Nat) + ((0 % 2 : Nat) : Int))
        ((0 : Int) * (2 : Nat) + ((0 / 2 : Nat) : Int))) = some .low ∧
    [TileType.default_water, TileType.default_water,
     TileType.default_water, TileType.default_water][0]? =
      some TileType.default_water :=
  ⟨by decide, by decide, by decide,
   low_elevation_yields_water
     ⟨fun _ _ => -2, fun _ _ => 3, fun _ _ => TileType.default_grass⟩ 0 0 2
     [TileType.default_water, TileType.default_water,
      TileType.default_water, TileType.default_water]
     (by decide) 0 (by decide) (by decide)⟩

/-- C2 (code defect): `WorldMap._get_chunk` calls
`generate_chunk(cx = cx, cy = cy, chunk_size = chunk_size)` on a cache
miss, but the argument expression `chunk_size` is an unbound name (the
attribute is `self.chunk_size`), so Python raises `NameError` instead of
regenerating the chunk.  In the embedding, `terrain_at` on an empty cache
therefore returns the failure value for every generator and never the
generated tile. -/
theorem terrainAt_cache_miss_fails (gen : Int → Int → Int → List TileType) :
    WorldMap.terrainAt ⟨32, gen, 8, []⟩ 0 0 = none := by
  rfl

end ANW
